import Mathlib

/-!
# config-sanity.js

A shallow embedding of `src/config-sanity.js` (the JSON config sanity checker) and
the properties of its rule table, its dotted-path walk and its per-file report.

Conventions of the embedding.

* A JavaScript string is the list of its UTF-16 code units (`JSString`); `u "..."`
  writes a literal.
* `console.log` is modelled by the list of the strings it was called with, one
  entry per call, in call order.
* A thrown exception is modelled by `Except`, carrying the `message` of the error.
* `fs.readFileSync`, `fs.existsSync`, `JSON.parse` and the property reads on
  built-in objects are facilities of the runtime, not code of the repository:
  they are the fields of `Host`.
* `path.basename` follows the POSIX implementation of Node.
-/

namespace ConfigSanity

/-! ## Values -/

/-- A JavaScript string, as the list of its UTF-16 code units. -/
abbrev JSString := List Nat

/-- The UTF-16 code units of one Unicode scalar value. -/
def utf16 (c : Char) : List Nat :=
  if c.toNat < 0x10000 then [c.toNat]
  else [0xD800 + (c.toNat - 0x10000) / 0x400, 0xDC00 + (c.toNat - 0x10000) % 0x400]

/-- The JavaScript string written by a literal. -/
def u (s : String) : JSString :=
  s.data.foldr (fun c acc => utf16 c ++ acc) []

/-- A JSON number after parsing: a finite value, or an infinity produced by a
literal too large for a double. Positive and negative zero are both `fin 0`. -/
inductive JSNum where
  | fin (q : ℚ)
  | posInf
  | negInf

/-- Whether a number is zero: `ToBoolean` is false for exactly these numbers
(JSON.parse never yields NaN). -/
def JSNum.isZero : JSNum → Bool
  | .fin q => decide (q = 0)
  | .posInf => false
  | .negInf => false

/-- A value produced by `JSON.parse`. An object is the list of its own properties
in property order; the keys of one object are pairwise distinct. -/
inductive Json where
  | null
  | bool (b : Bool)
  | num (n : JSNum)
  | str (s : JSString)
  | arr (xs : List Json)
  | obj (kvs : List (JSString × Json))

/-- A value a variable of the program can hold: absent, a parsed value, or a
built-in function or prototype object (named by where it was found) reached
through the prototype chain. -/
inductive JSVal where
  | undefined
  | json (j : Json)
  | native (name : JSString)

/-- The runtime facilities the program calls. -/
structure Host where
  /-- `fs.readFileSync(path, 'utf8')`: the text, or the message of the error thrown. -/
  readFileSync : JSString → Except JSString JSString
  /-- `JSON.parse(text)`: the value, or the message of the SyntaxError thrown. -/
  jsonParse : JSString → Except JSString Json
  /-- `fs.existsSync(path)`. -/
  existsSync : JSString → Bool
  /-- Reading property `key` of the built-in named `name`: the value, or the message
  of the error its getter throws. -/
  nativeGet : JSString → JSString → Except JSString JSVal
  /-- Evaluating `b.includes('node')` on the built-in named `b`: the truthiness of
  the result, or the message of the error thrown. -/
  nativeIncludes : JSString → Except JSString Bool
  /-- The message of the TypeError raised when an operation is applied to a value
  that does not support it. -/
  typeErrorMessage : JSVal → JSString

/-- `ToBoolean`. -/
def truthy : JSVal → Bool
  | .undefined => false
  | .json .null => false
  | .json (.bool b) => b
  | .json (.num n) => !n.isZero
  | .json (.str s) => !s.isEmpty
  | .json (.arr _) => true
  | .json (.obj _) => true
  | .native _ => true

/-! ## Property reads: `value?.[part]` -/

/-- The kinds of parsed value that have a prototype chain. -/
inductive Kind where
  | object
  | array
  | string
  | number
  | boolean

/-- The name of the prototype object of a kind. -/
def Kind.proto : Kind → String
  | .object => "Object.prototype"
  | .array => "Array.prototype"
  | .string => "String.prototype"
  | .number => "Number.prototype"
  | .boolean => "Boolean.prototype"

/-- The string-keyed properties of `Object.prototype` (ECMAScript 2024 with
Annex B), the accessor `__proto__` apart. -/
def objectProtoKeys : List JSString :=
  ["constructor", "hasOwnProperty", "isPrototypeOf", "propertyIsEnumerable",
   "toLocaleString", "toString", "valueOf", "__defineGetter__", "__defineSetter__",
   "__lookupGetter__", "__lookupSetter__"].map u

/-- The string-keyed properties of the prototype of each kind (ECMAScript 2024
with Annex B, as in Node 20 and later); `length` is an own property of arrays and
strings and is not listed. -/
def Kind.protoKeys : Kind → List JSString
  | .object => objectProtoKeys
  | .array =>
    ["at", "concat", "constructor", "copyWithin", "entries", "every", "fill",
     "filter", "find", "findIndex", "findLast", "findLastIndex", "flat", "flatMap",
     "forEach", "includes", "indexOf", "join", "keys", "lastIndexOf", "map", "pop",
     "push", "reduce", "reduceRight", "reverse", "shift", "slice", "some", "sort",
     "splice", "toLocaleString", "toReversed", "toSorted", "toSpliced", "toString",
     "unshift", "values", "with"].map u
  | .string =>
    ["at", "charAt", "charCodeAt", "codePointAt", "concat", "constructor",
     "endsWith", "includes", "indexOf", "lastIndexOf", "localeCompare", "match",
     "matchAll", "normalize", "padEnd", "padStart", "repeat", "replace",
     "replaceAll", "search", "slice", "split", "startsWith", "substring",
     "toLocaleLowerCase", "toLocaleUpperCase", "toLowerCase", "toString",
     "toUpperCase", "trim", "trimEnd", "trimStart", "valueOf", "substr", "anchor",
     "big", "blink", "bold", "fixed", "fontcolor", "fontsize", "italics", "link",
     "small", "strike", "sub", "sup", "trimLeft", "trimRight", "isWellFormed",
     "toWellFormed"].map u
  | .number =>
    ["constructor", "toExponential", "toFixed", "toLocaleString", "toPrecision",
     "toString", "valueOf"].map u
  | .boolean => ["constructor", "toString", "valueOf"].map u

/-- Reading `part` on a value of kind `k` that has no own property `part`: the
lookup continues in the prototype of the kind, then in `Object.prototype`.
The accessor `__proto__` yields the prototype of the kind. -/
def inherited (k : Kind) (part : JSString) : JSVal :=
  if part = u "__proto__" then .native (u k.proto)
  else if part ∈ k.protoKeys then .native (u k.proto ++ u "." ++ part)
  else if part ∈ objectProtoKeys then .native (u "Object.prototype." ++ part)
  else .undefined

/-- The first value stored under `key` in a list of properties. -/
def ownProp (key : JSString) : List (JSString × Json) → Option Json
  | [] => none
  | (k, v) :: rest => if k = key then some v else ownProp key rest

/-- Whether a code unit is a decimal digit. -/
def isDigitUnit (c : Nat) : Bool :=
  decide (48 ≤ c) && decide (c ≤ 57)

/-- The integer a property key denotes as an index: the key must be its canonical
decimal representation (digits only, no leading zero unless the key is `0`). -/
def parseIndex (part : JSString) : Option Nat :=
  match part with
  | [] => none
  | c :: rest =>
    if c = 48 then (if rest = [] then some 0 else none)
    else if (c :: rest).all isDigitUnit then
      some ((c :: rest).foldl (fun n d => 10 * n + (d - 48)) 0)
    else none

/-- The expression `value?.[part]` of line 39. -/
def getProp (host : Host) (value : JSVal) (part : JSString) : Except JSString JSVal :=
  match value with
  | .undefined => .ok .undefined
  | .json .null => .ok .undefined
  | .json (.obj kvs) =>
    match ownProp part kvs with
    | some v => .ok (.json v)
    | none => .ok (inherited .object part)
  | .json (.arr xs) =>
    if part = u "length" then .ok (.json (.num (.fin xs.length)))
    else match (parseIndex part).bind (fun i => xs.get? i) with
      | some v => .ok (.json v)
      | none => .ok (inherited .array part)
  | .json (.str s) =>
    if part = u "length" then .ok (.json (.num (.fin s.length)))
    else match (parseIndex part).bind (fun i => s.get? i) with
      | some c => .ok (.json (.str [c]))
      | none => .ok (inherited .string part)
  | .json (.num _) => .ok (inherited .number part)
  | .json (.bool _) => .ok (inherited .boolean part)
  | .native name => host.nativeGet name part

/-- The code units of `path.split('.')`, from the code units of `path`. -/
def splitDot : List Nat → List JSString
  | [] => [[]]
  | c :: cs =>
    if c = 46 then [] :: splitDot cs
    else match splitDot cs with
      | [] => [[c]]
      | seg :: rest => (c :: seg) :: rest

/-- The loop of lines 38 to 41: follow each part with `?.`, leave the loop as
soon as the value is `undefined`. -/
def walk (host : Host) : JSVal → List JSString → Except JSString JSVal
  | value, [] => .ok value
  | value, part :: rest =>
    match getProp host value part with
    | .error m => .error m
    | .ok .undefined => .ok .undefined
    | .ok v => walk host v rest

/-- Lines 34 to 41: the value at a dotted path of the parsed content. -/
def resolve (host : Host) (content : Json) (path : JSString) : Except JSString JSVal :=
  walk host (.json content) (splitDot path)

/-- The walk without the early exit of line 40: every part is followed with `?.`,
also after the value has become `undefined`. -/
def walkNoBreak (host : Host) : JSVal → List JSString → Except JSString JSVal
  | value, [] => .ok value
  | value, part :: rest =>
    match getProp host value part with
    | .error m => .error m
    | .ok v => walkNoBreak host v rest

/-! ## The rule table (lines 10 to 23) -/

/-- A verdict, or the message of the error the predicate throws. -/
abbrev Verdict := Except JSString JSString

/-- The sentinel verdict of a rule that passes. -/
def OK : JSString := u "OK"

/-- `String.prototype.includes`: whether `needle` occurs in `s` as a run of
consecutive code units. -/
def includes (s needle : JSString) : Bool :=
  match s with
  | [] => needle.isEmpty
  | c :: cs => needle.isPrefixOf (c :: cs) || includes cs needle

/-- `Array.prototype.includes('node')`: whether an element is the string `node`. -/
def arrayIncludesNode : List Json → Bool
  | [] => false
  | .str s :: rest => decide (s = u "node") || arrayIncludesNode rest
  | _ :: rest => arrayIncludesNode rest

/-- `Object.keys(v)`: the own enumerable string keys. It throws on `undefined` and
`null`; numbers, booleans and built-ins have none. -/
def objectKeys (host : Host) : JSVal → Except JSString (List JSString)
  | .undefined => .error (host.typeErrorMessage .undefined)
  | .json .null => .error (host.typeErrorMessage (.json .null))
  | .json (.obj kvs) => .ok (kvs.map Prod.fst)
  | .json (.arr xs) => .ok ((List.range xs.length).map (fun i => u (Nat.repr i)))
  | .json (.str s) => .ok ((List.range s.length).map (fun i => u (Nat.repr i)))
  | .json (.num _) => .ok []
  | .json (.bool _) => .ok []
  | .native _ => .ok []

/-- `val || {}`. -/
def orEmptyObject (val : JSVal) : JSVal :=
  if truthy val then val else .json (.obj [])

/-- Line 12, the `scripts.start` rule:
`val.includes('node') ? "OK" : "Why would you start without node?"`.
Strings and arrays have an `includes` method; reading `includes` of `undefined`
or `null` throws, and calling it throws when the value found is not a function
(objects, numbers, booleans: whatever an object stores under `includes` is a
parsed value, never a function). -/
def scriptsStart (host : Host) (val : JSVal) : Verdict :=
  match val with
  | .json (.str s) =>
    .ok (if includes s (u "node") then OK else u "Why would you start without node?")
  | .json (.arr xs) =>
    .ok (if arrayIncludesNode xs then OK else u "Why would you start without node?")
  | .native name =>
    match host.nativeIncludes name with
    | .ok b => .ok (if b then OK else u "Why would you start without node?")
    | .error m => .error m
  | v => .error (host.typeErrorMessage v)

/-- Line 13, the `dependencies` rule:
`Object.keys(val || {}).length > 50 ? "Dependency addiction detected" : "OK"`. -/
def dependencies (host : Host) (val : JSVal) : Verdict :=
  match objectKeys host (orEmptyObject val) with
  | .error m => .error m
  | .ok keys => .ok (if keys.length > 50 then u "Dependency addiction detected" else OK)

/-- Whether `val === s` for a string `s`. -/
def strictEqStr (val : JSVal) (s : JSString) : Bool :=
  match val with
  | .json (.str t) => decide (t = s)
  | _ => false

/-- Line 14, the `version` rule:
`val === '0.0.0' ? "Forever in development limbo" : "OK"`. -/
def version (_host : Host) (val : JSVal) : Verdict :=
  .ok (if strictEqStr val (u "0.0.0") then u "Forever in development limbo" else OK)

/-- Line 17, the `compilerOptions.target` rule:
`['es3', 'es5'].includes(val) ? "Living in the past" : "OK"`. -/
def target (_host : Host) (val : JSVal) : Verdict :=
  .ok (if [u "es3", u "es5"].any (strictEqStr val) then u "Living in the past" else OK)

/-- Line 18, the `compilerOptions.strict` rule:
`!val ? "Living dangerously" : "OK"`. -/
def strict (_host : Host) (val : JSVal) : Verdict :=
  .ok (if !truthy val then u "Living dangerously" else OK)

/-- Line 21, the `rules` rule:
`!val || Object.keys(val).length === 0 ? "Rules are for fools" : "OK"`. -/
def rules (host : Host) (val : JSVal) : Verdict :=
  if !truthy val then .ok (u "Rules are for fools")
  else match objectKeys host val with
    | .error m => .error m
    | .ok keys => .ok (if keys.length = 0 then u "Rules are for fools" else OK)

/-- A rule predicate. -/
abbrev Check := Host → JSVal → Verdict

/-- The table `RULES`: for each recognised file name, its rules in insertion
order. -/
def RULES : List (JSString × List (JSString × Check)) :=
  [ (u "package.json",
      [ (u "scripts.start", scriptsStart),
        (u "dependencies", dependencies),
        (u "version", version) ]),
    (u "tsconfig.json",
      [ (u "compilerOptions.target", target),
        (u "compilerOptions.strict", strict) ]),
    (u ".eslintrc.json",
      [ (u "rules", rules) ]) ]

/-- The own property `filename` of `RULES`, if there is one. -/
def ownRules (filename : JSString) :
    List (JSString × List (JSString × Check)) → Option (List (JSString × Check))
  | [] => none
  | (name, rs) :: rest => if name = filename then some rs else ownRules filename rest

/-- The value of `RULES[filename] || {}` seen through `Object.entries` (lines 29
and 33). An own property of `RULES` gives its rules. Any other name is read from
`Object.prototype`: it gives `undefined`, replaced by `{}`, or a built-in, which
is truthy and has no enumerable own property; both have no entries. -/
def rulesEntries (filename : JSString) : List (JSString × Check) :=
  match ownRules filename RULES with
  | some rs => rs
  | none =>
    match inherited .object filename with
    | .undefined => []
    | .json _ => []
    | .native _ => []

/-! ## checkFile (lines 25 to 58) and main (lines 61 to 80) -/

/-- `path.basename(p)` (POSIX): drop the trailing slashes, keep what follows the
last remaining slash. -/
def basename (p : JSString) : JSString :=
  ((p.reverse.dropWhile (fun c => c = 47)).takeWhile (fun c => c ≠ 47)).reverse

/-- What a block of statements did: the strings it logged, and the message of the
error that ended it, if one was thrown. -/
abbrev Run := List JSString × Option JSString

/-- Line 31: the header. -/
def headerLine (filename : JSString) : JSString :=
  u "\n🔍 Checking " ++ filename ++ u ":"

/-- Lines 44 to 48: the line of one rule. -/
def ruleLine (path result : JSString) : JSString :=
  if result ≠ OK then u "  ⚠️  " ++ path ++ u ": " ++ result
  else u "  ✓ " ++ path ++ u ": " ++ result

/-- Line 52: the acknowledgment. -/
def validLine : JSString := u "  ✓ Valid JSON (at least it's not XML)"

/-- Line 55: the failure annotation. -/
def errorLine (filePath message : JSString) : JSString :=
  u "\n💥 " ++ filePath ++ u ": " ++ message

/-- Line 56. -/
def sighLine : JSString := u "  (This is why we can't have nice things)"

/-- Lines 33 to 49: the `forEach` over the entries of the rule set. An error
thrown by the walk or by a predicate ends the loop. -/
def forEachRule (host : Host) (content : Json) : List (JSString × Check) → Run
  | [] => ([], none)
  | (path, check) :: rest =>
    match resolve host content path with
    | .error m => ([], some m)
    | .ok value =>
      match check host value with
      | .error m => ([], some m)
      | .ok result =>
        let r := forEachRule host content rest
        (ruleLine path result :: r.1, r.2)

/-- Lines 27 to 52: the body of the `try`. -/
def tryBlock (host : Host) (filePath : JSString) : Run :=
  match host.readFileSync filePath with
  | .error m => ([], some m)
  | .ok text =>
    match host.jsonParse text with
    | .error m => ([], some m)
    | .ok content =>
      let filename := basename filePath
      let r := forEachRule host content (rulesEntries filename)
      match r.2 with
      | some m => (headerLine filename :: r.1, some m)
      | none => (headerLine filename :: r.1 ++ [validLine], none)

/-- The function `checkFile`: the `try` block, then the `catch` block if an error
was thrown. The result is everything logged. -/
def checkFile (host : Host) (filePath : JSString) : List JSString :=
  match tryBlock host filePath with
  | (out, none) => out
  | (out, some m) => out ++ [errorLine filePath m, sighLine]

/-- Line 69. -/
def commonFiles : List JSString :=
  [u "package.json", u "tsconfig.json", u ".eslintrc.json"]

/-- The function `main`, on the arguments `process.argv.slice(2)`. -/
def main (host : Host) (files : List JSString) : List JSString :=
  [u "🧠 JSON Config Sanity Checker", u "Finding problems before they find you\n"]
  ++ (if files.length = 0 then
        (commonFiles.filter host.existsSync).foldr (fun f acc => checkFile host f ++ acc) []
      else
        files.foldr (fun f acc => checkFile host f ++ acc) [])
  ++ [u "\n✅ Sanity check complete (your sanity not guaranteed)"]

/-- The same runtime on another state of the file system. -/
def Host.withFiles (host : Host) (read : JSString → Except JSString JSString)
    (present : JSString → Bool) : Host :=
  { host with readFileSync := read, existsSync := present }

/-! ## The nested keys of a document -/

/-- The value an object stores under a key; nothing for a value that is not an
object. -/
def ownKey (c : Json) (key : JSString) : Option Json :=
  match c with
  | .obj kvs => ownProp key kvs
  | _ => none

/-- The value stored at nested keys: every value on the way must be an object that
has the next key. -/
def nestedKeys : Json → List JSString → Option Json
  | c, [] => some c
  | c, key :: rest =>
    match ownKey c key with
    | some v => nestedKeys v rest
    | none => none

/-- A parsed value if there is one, `undefined` otherwise. -/
def orUndefined : Option Json → JSVal
  | some v => .json v
  | none => .undefined

/-- A key that is not `length`, not an index, and not the name of a property in
the tables of the built-in prototypes above. -/
def plainKey (key : JSString) : Bool :=
  decide (key ≠ u "length") && (parseIndex key).isNone
    && decide (key ≠ u "__proto__")
    && !(objectProtoKeys.contains key)
    && !(Kind.array.protoKeys.contains key)
    && !(Kind.string.protoKeys.contains key)
    && !(Kind.number.protoKeys.contains key)
    && !(Kind.boolean.protoKeys.contains key)

/-! ## A sample host -/

/-- The value stored under a key in a table. -/
def assoc {α : Type} (key : JSString) : List (JSString × α) → Option α
  | [] => none
  | (k, v) :: rest => if k = key then some v else assoc key rest

/-- The files of the sample host: path and text. -/
def sampleFiles : List (JSString × JSString) :=
  [ (u "package.json", u "\x7b\x7d"),
    (u "broken.json", u "\x7b not json"),
    (u "app/package.json",
      u "\x7b\"scripts\":\x7b\"start\":\"node app.js\"\x7d,\"version\":\"0.0.0\"\x7d"),
    (u "cfg/tsconfig.json", u "\x7b\"compilerOptions\":\x7b\"strict\":false\x7d\x7d"),
    (u "lib/constructor", u "null"),
    (u "notes.json", u "[1]"),
    (u "tsconfig.json", u "\x7b\"compilerOptions\":\x7b\"strict\":false\x7d\x7d") ]

/-- What `JSON.parse` gives on the texts of the sample files. -/
def sampleParse : List (JSString × Json) :=
  [ (u "\x7b\x7d", .obj []),
    (u "\x7b\"scripts\":\x7b\"start\":\"node app.js\"\x7d,\"version\":\"0.0.0\"\x7d",
      .obj [(u "scripts", .obj [(u "start", .str (u "node app.js"))]),
            (u "version", .str (u "0.0.0"))]),
    (u "\x7b\"compilerOptions\":\x7b\"strict\":false\x7d\x7d",
      .obj [(u "compilerOptions", .obj [(u "strict", .bool false)])]),
    (u "null", .null),
    (u "[1]", .arr [.num (.fin 1)]) ]

/-- A host holding the sample files. No example reads a property of a built-in;
the messages are those of V8. -/
def sampleHost : Host where
  readFileSync := fun p =>
    match assoc p sampleFiles with
    | some text => .ok text
    | none => .error (u "ENOENT: no such file or directory, open '" ++ p ++ u "'")
  jsonParse := fun t =>
    match assoc t sampleParse with
    | some doc => .ok doc
    | none => .error (u "Unexpected token n in JSON at position 2")
  existsSync := fun p => (assoc p sampleFiles).isSome
  nativeGet := fun _ _ => .ok .undefined
  nativeIncludes := fun _ => .error (u "val.includes is not a function")
  typeErrorMessage := fun v =>
    match v with
    | .undefined => u "Cannot read properties of undefined (reading 'includes')"
    | .json .null => u "Cannot read properties of null (reading 'includes')"
    | _ => u "val.includes is not a function"

/-- The sample host on a file system that holds no file. -/
def bareHost : Host where
  readFileSync := fun p => .error (u "ENOENT: no such file or directory, open '" ++ p ++ u "'")
  jsonParse := sampleHost.jsonParse
  existsSync := fun _ => false
  nativeGet := sampleHost.nativeGet
  nativeIncludes := sampleHost.nativeIncludes
  typeErrorMessage := sampleHost.typeErrorMessage

/-! ## Lemmas on the path walk -/

theorem inherited_of_plainKey (k : Kind) (key : JSString) (h : plainKey key = true) :
    inherited k key = .undefined := by
  simp only [plainKey, Bool.and_eq_true, Bool.not_eq_true', decide_eq_true_eq,
    List.contains_eq_any_beq, List.any_eq_false, beq_iff_eq] at h
  obtain ⟨⟨⟨⟨⟨⟨⟨_, _⟩, hp⟩, ho⟩, ha⟩, hs⟩, hn⟩, hb⟩ := h
  have mem_false : ∀ l : List JSString, (∀ x ∈ l, ¬ key = x) → key ∉ l :=
    fun l hl hm => hl key hm rfl
  have ho2 := mem_false _ ho
  cases k <;> unfold inherited <;> rw [if_neg hp]
  · rw [if_neg (mem_false Kind.object.protoKeys ho), if_neg ho2]
  · rw [if_neg (mem_false _ ha), if_neg ho2]
  · rw [if_neg (mem_false _ hs), if_neg ho2]
  · rw [if_neg (mem_false _ hn), if_neg ho2]
  · rw [if_neg (mem_false _ hb), if_neg ho2]

theorem getProp_of_plainKey (host : Host) (c : Json) (key : JSString)
    (h : plainKey key = true) :
    getProp host (.json c) key = .ok (orUndefined (ownKey c key)) := by
  have hi := fun k => inherited_of_plainKey k key h
  have hl : key ≠ u "length" := by
    simp only [plainKey, Bool.and_eq_true, decide_eq_true_eq] at h
    exact h.1.1.1.1.1.1.1
  have hx : parseIndex key = none := by
    simp only [plainKey, Bool.and_eq_true, Option.isNone_iff_eq_none] at h
    exact h.1.1.1.1.1.1.2
  cases c with
  | null => rfl
  | bool b => simp [getProp, hi, ownKey, orUndefined]
  | num n => simp [getProp, hi, ownKey, orUndefined]
  | str s => simp [getProp, hi, hl, hx, ownKey, orUndefined]
  | arr xs => simp [getProp, hi, hl, hx, ownKey, orUndefined]
  | obj kvs =>
    simp only [getProp, ownKey]
    cases ownProp key kvs with
    | none => simp [hi, orUndefined]
    | some v => simp [orUndefined]

theorem walk_of_plainKeys (host : Host) (segs : List JSString) :
    ∀ c : Json, (∀ seg ∈ segs, plainKey seg = true) →
      walk host (.json c) segs = .ok (orUndefined (nestedKeys c segs)) := by
  induction segs with
  | nil => intro c _; rfl
  | cons key rest ih =>
    intro c h
    have hk := getProp_of_plainKey host c key (h key (List.mem_cons_self _ _))
    simp only [walk, hk, nestedKeys]
    cases ownKey c key with
    | none => rfl
    | some v =>
      simp only [orUndefined]
      exact ih v (fun seg hs => h seg (List.mem_cons_of_mem _ hs))

/-! ## Lemmas on the printed lines -/

theorem take_headerLine (name : JSString) :
    (headerLine name).take 3 = [10, 55357, 56589] := by
  have h : u "\n🔍 Checking " = 10 :: 55357 :: 56589 :: u " Checking " := by decide
  simp [headerLine, h]

theorem take_errorLine (filePath m : JSString) :
    (errorLine filePath m).take 3 = [10, 55357, 56485] := by
  have h : u "\n💥 " = 10 :: 55357 :: 56485 :: u " " := by decide
  simp [errorLine, h]

theorem take_sighLine : sighLine.take 3 = [32, 32, 40] := by decide

theorem take_validLine : validLine.take 3 = [32, 32, 10003] := by decide

theorem take_ruleLine (path result : JSString) :
    (ruleLine path result).take 3 = [32, 32, 9888] ∨
      ((ruleLine path result).take 3 = [32, 32, 10003] ∧ result = OK) := by
  have hw : u "  ⚠️  " = 32 :: 32 :: 9888 :: u "️  " := by decide
  have hk : u "  ✓ " = 32 :: 32 :: 10003 :: u " " := by decide
  by_cases hr : result = OK
  · right
    simp [ruleLine, hr, hk]
  · left
    simp [ruleLine, hr, hw]

theorem ruleLine_ne_validLine (path result : JSString) : ruleLine path result ≠ validLine := by
  intro h
  rcases take_ruleLine path result with h3 | ⟨_, hr⟩
  · have := congrArg (List.take 3) h
    rw [h3, take_validLine] at this
    exact absurd this (by decide)
  · have hl := congrArg (fun l => l.reverse.head?) h
    have hv : validLine.reverse.head? = some 41 := by decide
    have hk : OK.reverse = [75, 79] := by decide
    simp only [ruleLine, hr, List.reverse_append, hk, hv, ne_eq, not_true_eq_false, if_false,
      List.cons_append, List.head?_cons] at hl
    exact absurd hl (by decide)

theorem ruleLine_ne_headerLine (path result name : JSString) :
    ruleLine path result ≠ headerLine name := by
  intro h
  have h3 := congrArg (List.take 3) h
  rw [take_headerLine] at h3
  rcases take_ruleLine path result with h | ⟨h, _⟩ <;> rw [h] at h3 <;>
    exact absurd h3 (by decide)

theorem ruleLine_ne_errorLine (path result filePath m : JSString) :
    ruleLine path result ≠ errorLine filePath m := by
  intro h
  have h3 := congrArg (List.take 3) h
  rw [take_errorLine] at h3
  rcases take_ruleLine path result with h | ⟨h, _⟩ <;> rw [h] at h3 <;>
    exact absurd h3 (by decide)

theorem ruleLine_ne_sighLine (path result : JSString) : ruleLine path result ≠ sighLine := by
  intro h
  have h3 := congrArg (List.take 3) h
  rw [take_sighLine] at h3
  rcases take_ruleLine path result with h | ⟨h, _⟩ <;> rw [h] at h3 <;>
    exact absurd h3 (by decide)

theorem headerLine_ne_validLine (name : JSString) : headerLine name ≠ validLine := by
  intro h
  have h3 := congrArg (List.take 3) h
  rw [take_headerLine, take_validLine] at h3
  exact absurd h3 (by decide)

theorem headerLine_ne_errorLine (name filePath m : JSString) :
    headerLine name ≠ errorLine filePath m := by
  intro h
  have h3 := congrArg (List.take 3) h
  rw [take_headerLine, take_errorLine] at h3
  exact absurd h3 (by decide)

theorem headerLine_ne_sighLine (name : JSString) : headerLine name ≠ sighLine := by
  intro h
  have h3 := congrArg (List.take 3) h
  rw [take_headerLine, take_sighLine] at h3
  exact absurd h3 (by decide)

theorem errorLine_ne_validLine (filePath m : JSString) : errorLine filePath m ≠ validLine := by
  intro h
  have h3 := congrArg (List.take 3) h
  rw [take_errorLine, take_validLine] at h3
  exact absurd h3 (by decide)

theorem sighLine_ne_validLine : sighLine ≠ validLine := by decide

/-! ## Lemmas on the rule table -/

theorem objectKeys_ok_of_truthy (host : Host) (v : JSVal) (h : truthy v = true) :
    ∃ keys, objectKeys host v = .ok keys := by
  cases v with
  | undefined => simp [truthy] at h
  | native name => exact ⟨_, rfl⟩
  | json j =>
    cases j with
    | null => simp [truthy] at h
    | bool b => exact ⟨_, rfl⟩
    | num n => exact ⟨_, rfl⟩
    | str t => exact ⟨_, rfl⟩
    | arr xs => exact ⟨_, rfl⟩
    | obj kvs => exact ⟨_, rfl⟩

theorem rulesEntries_of_ownRules_none (filename : JSString)
    (h : ownRules filename RULES = none) : rulesEntries filename = [] := by
  unfold rulesEntries
  rw [h]
  cases inherited .object filename <;> rfl

theorem ownRules_none (filename : JSString) (hp : filename ≠ u "package.json")
    (ht : filename ≠ u "tsconfig.json") (he : filename ≠ u ".eslintrc.json") :
    ownRules filename RULES = none := by
  simp [ownRules, RULES, Ne.symm hp, Ne.symm ht, Ne.symm he]

theorem rulesEntries_of_ownRules_some (filename : JSString) (rs : List (JSString × Check))
    (h : ownRules filename RULES = some rs) : rulesEntries filename = rs := by
  unfold rulesEntries
  rw [h]

theorem dependencies_total (host : Host) (v : JSVal) : ∃ r, dependencies host v = .ok r := by
  have hk : ∃ keys, objectKeys host (orEmptyObject v) = .ok keys := by
    unfold orEmptyObject
    by_cases ht : truthy v = true
    · rw [if_pos ht]; exact objectKeys_ok_of_truthy host v ht
    · rw [if_neg ht]; exact ⟨_, rfl⟩
  obtain ⟨keys, hk⟩ := hk
  simp only [dependencies, hk]
  exact ⟨_, rfl⟩

theorem rules_total (host : Host) (v : JSVal) : ∃ r, rules host v = .ok r := by
  by_cases ht : truthy v = true
  · obtain ⟨keys, hk⟩ := objectKeys_ok_of_truthy host v ht
    simp only [rules, ht, hk, Bool.not_true, Bool.false_eq_true, if_false]
    exact ⟨_, rfl⟩
  · simp only [Bool.not_eq_true] at ht
    simp [rules, ht]

/-- Every segment of every path of the rule table is a plain key. -/
theorem rule_paths_plain :
    ∀ fr ∈ RULES, ∀ pc ∈ fr.2, ∀ seg ∈ splitDot pc.1, plainKey seg = true := by
  decide

theorem mem_of_ownRules (filename : JSString) (rs : List (JSString × Check)) :
    ∀ table : List (JSString × List (JSString × Check)),
      ownRules filename table = some rs → (filename, rs) ∈ table := by
  intro table
  induction table with
  | nil => intro h; simp [ownRules] at h
  | cons hd tl ih =>
    obtain ⟨name, rs0⟩ := hd
    intro h
    by_cases hn : name = filename
    · simp only [ownRules, hn, if_true, Option.some.injEq] at h
      simp [hn, h]
    · simp only [ownRules, hn, if_false] at h
      exact List.mem_cons_of_mem _ (ih h)

/-- The walk of a path of the rule table never throws: it gives the value stored
at the nested keys, or `undefined`. -/
theorem resolve_rule_path (host : Host) (content : Json) (filename : JSString)
    (rs : List (JSString × Check)) (h : ownRules filename RULES = some rs)
    (pc : JSString × Check) (hpc : pc ∈ rs) :
    resolve host content pc.1 = .ok (orUndefined (nestedKeys content (splitDot pc.1))) :=
  walk_of_plainKeys host _ content
    (rule_paths_plain (filename, rs) (mem_of_ownRules filename rs RULES h) pc hpc)

/-- The loop over the rules when no predicate throws: one line per rule, in
order. -/
theorem forEachRule_of_no_throw (host : Host) (content : Json) :
    ∀ rs : List (JSString × Check),
      (∀ pc ∈ rs, ∃ v r, resolve host content pc.1 = .ok v ∧ pc.2 host v = .ok r) →
      ∃ results : List JSString,
        List.Forall₂
          (fun pc r => ∃ v, resolve host content pc.1 = .ok v ∧ pc.2 host v = .ok r)
          rs results ∧
        forEachRule host content rs =
          (List.zipWith (fun pc r => ruleLine pc.1 r) rs results, none) := by
  intro rs
  induction rs with
  | nil => intro _; exact ⟨[], List.Forall₂.nil, rfl⟩
  | cons pc rest ih =>
    intro h
    obtain ⟨v, r, hv, hc⟩ := h pc (List.mem_cons_self _ _)
    obtain ⟨results, hf, hrest⟩ := ih (fun q hq => h q (List.mem_cons_of_mem _ hq))
    refine ⟨r :: results, List.Forall₂.cons ⟨v, hv, hc⟩ hf, ?_⟩
    obtain ⟨path, check⟩ := pc
    simp only at hv hc
    simp only [forEachRule, hv, hc, hrest, List.zipWith_cons_cons]

theorem isPrefixOf_iff_append (needle : JSString) :
    ∀ l : JSString, needle.isPrefixOf l = true ↔ ∃ b, l = needle ++ b := by
  induction needle with
  | nil => intro l; simp
  | cons x xs ih =>
    intro l
    cases l with
    | nil => simp
    | cons y ys =>
      simp only [List.isPrefixOf, Bool.and_eq_true, beq_iff_eq, ih ys, List.cons_append,
        List.cons.injEq]
      constructor
      · rintro ⟨hxy, b, hb⟩
        exact ⟨b, hxy.symm, hb⟩
      · rintro ⟨b, hxy, hb⟩
        exact ⟨hxy.symm, b, hb⟩

/-- `includes` holds exactly when the needle is a run of consecutive code units of
the string. -/
theorem includes_iff (needle : JSString) :
    ∀ s : JSString, includes s needle = true ↔ ∃ a b, s = a ++ needle ++ b := by
  intro s
  induction s with
  | nil =>
    simp only [includes, List.isEmpty_iff]
    constructor
    · intro h; exact ⟨[], [], by simp [h]⟩
    · rintro ⟨a, b, h⟩
      have h2 := congrArg List.length h
      simp only [List.length_nil, List.length_append] at h2
      exact List.length_eq_zero.mp (by omega)
  | cons c cs ih =>
    simp only [includes, Bool.or_eq_true, isPrefixOf_iff_append, ih]
    constructor
    · rintro (⟨b, hb⟩ | ⟨a, b, hab⟩)
      · exact ⟨[], b, by simpa using hb⟩
      · exact ⟨c :: a, b, by simp [hab]⟩
    · rintro ⟨a, b, hab⟩
      cases a with
      | nil => left; exact ⟨b, by simpa using hab⟩
      | cons x a2 =>
        right
        simp only [List.cons_append, List.cons.injEq] at hab
        exact ⟨a2, b, hab.2⟩

theorem splitDot_strict :
    splitDot (u "compilerOptions.strict") = [u "compilerOptions", u "strict"] := by decide

theorem splitDot_target :
    splitDot (u "compilerOptions.target") = [u "compilerOptions", u "target"] := by decide

theorem splitDot_start :
    splitDot (u "scripts.start") = [u "scripts", u "start"] := by decide

theorem walkNoBreak_undefined (host : Host) (segs : List JSString) :
    walkNoBreak host .undefined segs = .ok .undefined := by
  induction segs with
  | nil => rfl
  | cons part rest ih => simp only [walkNoBreak, getProp, ih]

theorem flatten_eq_foldr (host : Host) (files : List JSString) :
    files.foldr (fun f acc => checkFile host f ++ acc) [] =
      (files.map (checkFile host)).flatten := by
  induction files with
  | nil => rfl
  | cons f rest ih => simp only [List.foldr_cons, ih, List.map_cons, List.flatten_cons]

theorem basename_of_dir (d name : JSString) (hne : name ≠ []) (hs : 47 ∉ name) :
    basename (d ++ u "/" ++ name) = name := by
  have hu : u "/" = [47] := by decide
  have hrev : name.reverse ≠ [] := by simpa using hne
  obtain ⟨c, cs, hc⟩ := List.exists_cons_of_ne_nil hrev
  have hc47 : c ≠ 47 := by
    intro h
    apply hs
    have : c ∈ name.reverse := by rw [hc]; exact List.mem_cons_self _ _
    rw [← h]
    exact List.mem_reverse.mp this
  have hall : ∀ x ∈ name.reverse, (decide (x ≠ 47)) = true := by
    intro x hx
    have : x ∈ name := List.mem_reverse.mp hx
    simp only [ne_eq, decide_not, Bool.not_eq_true', decide_eq_false_iff_not]
    intro h
    exact hs (h ▸ this)
  unfold basename
  rw [hu, List.reverse_append, List.reverse_append]
  have hdrop : List.dropWhile (fun c => decide (c = 47)) (name.reverse ++ ([47].reverse ++ d.reverse))
      = name.reverse ++ ([47].reverse ++ d.reverse) := by
    rw [hc]
    simp [List.dropWhile, hc47]
  rw [hdrop]
  have htake : List.takeWhile (fun c => decide (c ≠ 47))
      (name.reverse ++ ([47].reverse ++ d.reverse)) = name.reverse := by
    rw [List.takeWhile_append_of_pos hall]
    simp [List.takeWhile]
  rw [htake, List.reverse_reverse]

theorem basename_of_plain (name : JSString) (hne : name ≠ []) (hs : 47 ∉ name) :
    basename name = name := by
  have hrev : name.reverse ≠ [] := by simpa using hne
  obtain ⟨c, cs, hc⟩ := List.exists_cons_of_ne_nil hrev
  have hc47 : c ≠ 47 := by
    intro h
    apply hs
    have : c ∈ name.reverse := by rw [hc]; exact List.mem_cons_self _ _
    rw [← h]
    exact List.mem_reverse.mp this
  have hall : ∀ x ∈ name.reverse, (decide (x ≠ 47)) = true := by
    intro x hx
    have : x ∈ name := List.mem_reverse.mp hx
    simp only [ne_eq, decide_not, Bool.not_eq_true', decide_eq_false_iff_not]
    intro h
    exact hs (h ▸ this)
  unfold basename
  have hdrop : List.dropWhile (fun c => decide (c = 47)) name.reverse = name.reverse := by
    rw [hc]
    simp [List.dropWhile, hc47]
  rw [hdrop]
  have htake : List.takeWhile (fun c => decide (c ≠ 47)) name.reverse = name.reverse := by
    rw [List.takeWhile_eq_self_iff]
    exact hall
  rw [htake, List.reverse_reverse]

theorem walk_withFiles (host : Host) (read : JSString → Except JSString JSString)
    (present : JSString → Bool) (segs : List JSString) :
    ∀ value, walk (host.withFiles read present) value segs = walk host value segs := by
  induction segs with
  | nil => intro value; rfl
  | cons part rest ih =>
    intro value
    have hg : getProp (host.withFiles read present) value part = getProp host value part := by
      cases value with
      | undefined => rfl
      | native name => rfl
      | json j => cases j <;> rfl
    simp only [walk, hg]
    cases getProp host value part with
    | error m => rfl
    | ok v =>
      cases v with
      | undefined => rfl
      | native name => exact ih _
      | json j => exact ih _

theorem checks_withFiles (host : Host) (read : JSString → Except JSString JSString)
    (present : JSString → Bool) :
    ∀ fr ∈ RULES, ∀ pc ∈ fr.2, ∀ v, pc.2 (host.withFiles read present) v = pc.2 host v := by
  intro fr hfr pc hpc v
  simp only [RULES, List.mem_cons, List.mem_singleton, List.not_mem_nil, or_false] at hfr
  rcases hfr with h | h | h <;> subst h <;>
    simp only [List.mem_cons, List.mem_singleton, List.not_mem_nil, or_false] at hpc
  · rcases hpc with h | h | h <;> subst h
    · cases v with
      | undefined => rfl
      | native name => rfl
      | json j => cases j <;> rfl
    · show dependencies _ v = dependencies _ v
      unfold dependencies
      have : objectKeys (host.withFiles read present) (orEmptyObject v) =
          objectKeys host (orEmptyObject v) := by
        cases orEmptyObject v with
        | undefined => rfl
        | native name => rfl
        | json j => cases j <;> rfl
      rw [this]
    · rfl
  · rcases hpc with h | h <;> subst h <;> rfl
  · subst hpc
    show rules _ v = rules _ v
    unfold rules
    have : objectKeys (host.withFiles read present) v = objectKeys host v := by
      cases v with
      | undefined => rfl
      | native name => rfl
      | json j => cases j <;> rfl
    rw [this]

theorem forEachRule_withFiles (host : Host) (read : JSString → Except JSString JSString)
    (present : JSString → Bool) (content : Json) :
    ∀ rs : List (JSString × Check),
      (∀ pc ∈ rs, ∀ v, pc.2 (host.withFiles read present) v = pc.2 host v) →
      forEachRule (host.withFiles read present) content rs = forEachRule host content rs := by
  intro rs
  induction rs with
  | nil => intro _; rfl
  | cons pc rest ih =>
    intro h
    obtain ⟨path, check⟩ := pc
    have hc : ∀ v, check (host.withFiles read present) v = check host v :=
      fun v => h (path, check) (List.mem_cons_self _ _) v
    have hrest := ih (fun q hq => h q (List.mem_cons_of_mem _ hq))
    simp only [forEachRule, resolve, walk_withFiles, hc, hrest]

theorem rulesEntries_withFiles (host : Host) (read : JSString → Except JSString JSString)
    (present : JSString → Bool) (filename : JSString) :
    ∀ pc ∈ rulesEntries filename, ∀ v, pc.2 (host.withFiles read present) v = pc.2 host v := by
  intro pc hpc v
  cases hown : ownRules filename RULES with
  | none =>
    rw [rulesEntries_of_ownRules_none filename hown] at hpc
    exact absurd hpc (List.not_mem_nil _)
  | some rs =>
    rw [rulesEntries_of_ownRules_some filename rs hown] at hpc
    exact checks_withFiles host read present (filename, rs)
      (mem_of_ownRules filename rs RULES hown) pc hpc v

theorem checkFile_withFiles (host : Host) (read : JSString → Except JSString JSString)
    (present : JSString → Bool) (p : JSString) (h : read p = host.readFileSync p) :
    checkFile (host.withFiles read present) p = checkFile host p := by
  have hr : (host.withFiles read present).readFileSync p = host.readFileSync p := h
  have hj : ∀ t, (host.withFiles read present).jsonParse t = host.jsonParse t := fun _ => rfl
  have hloop : ∀ content, forEachRule (host.withFiles read present) content
      (rulesEntries (basename p)) = forEachRule host content (rulesEntries (basename p)) :=
    fun content => forEachRule_withFiles host read present content _
      (rulesEntries_withFiles host read present (basename p))
  have ht : tryBlock (host.withFiles read present) p = tryBlock host p := by
    simp only [tryBlock, hr, hj, hloop]
  simp only [checkFile, ht]

theorem commonFiles_plain (name : JSString) (h : name ∈ commonFiles) :
    name ≠ [] ∧ 47 ∉ name := by
  simp only [commonFiles, List.mem_cons, List.mem_singleton, List.not_mem_nil, or_false] at h
  rcases h with h | h | h <;> subst h <;> decide

theorem tryBlock_of_basename (host : Host) (p q : JSString)
    (hread : host.readFileSync p = host.readFileSync q) (hbase : basename p = basename q) :
    tryBlock host p = tryBlock host q := by
  simp only [tryBlock, hread, hbase]

/-- Every line printed by the loop over the rules is the line of a rule of the
set, built from its path and from the verdict of its predicate. -/
theorem mem_forEachRule (host : Host) (content : Json) :
    ∀ (rs : List (JSString × Check)) (line : JSString),
      line ∈ (forEachRule host content rs).1 →
      ∃ pc ∈ rs, ∃ v r, resolve host content pc.1 = .ok v ∧ pc.2 host v = .ok r ∧
        line = ruleLine pc.1 r := by
  intro rs
  induction rs with
  | nil => intro line h; simp [forEachRule] at h
  | cons pc rest ih =>
    intro line h
    obtain ⟨path, check⟩ := pc
    simp only [forEachRule] at h
    cases hv : resolve host content path with
    | error m => simp [hv] at h
    | ok v =>
      cases hc : check host v with
      | error m => simp [hv, hc] at h
      | ok r =>
        simp only [hv, hc, List.mem_cons] at h
        rcases h with h | h
        · exact ⟨(path, check), List.mem_cons_self _ _, v, r, hv, hc, h⟩
        · obtain ⟨q, hq, w⟩ := ih line h
          exact ⟨q, List.mem_cons_of_mem _ hq, w⟩

theorem resolve_start (host : Host) (content : Json) :
    resolve host content (u "scripts.start") =
      .ok (orUndefined (nestedKeys content [u "scripts", u "start"])) := by
  rw [resolve, splitDot_start]
  exact walk_of_plainKeys host _ content (by decide)

theorem resolve_single (host : Host) (content : Json) (key : JSString)
    (hk : splitDot key = [key]) (hp : plainKey key = true) :
    ∃ v, resolve host content key = .ok v := by
  refine ⟨orUndefined (nestedKeys content [key]), ?_⟩
  rw [resolve, hk]
  exact walk_of_plainKeys host _ content (by simpa using hp)

/-- The report on a `package.json` when the `scripts.start` predicate returns. -/
theorem checkFile_package_of_ok (host : Host) (filePath text : JSString) (content : Json)
    (hr : host.readFileSync filePath = .ok text) (hj : host.jsonParse text = .ok content)
    (hb : basename filePath = u "package.json") (r : JSString)
    (hs : scriptsStart host (orUndefined (nestedKeys content [u "scripts", u "start"])) =
      .ok r) :
    ∃ l2 l3, checkFile host filePath =
      [headerLine (u "package.json"), ruleLine (u "scripts.start") r, l2, l3, validLine] := by
  have hrs : rulesEntries (basename filePath) =
      [(u "scripts.start", scriptsStart), (u "dependencies", dependencies),
       (u "version", version)] := by
    rw [hb]; rfl
  obtain ⟨vd, hvd⟩ := resolve_single host content (u "dependencies") (by decide) (by decide)
  obtain ⟨vv, hvv⟩ := resolve_single host content (u "version") (by decide) (by decide)
  obtain ⟨rd, hrd⟩ := dependencies_total host vd
  refine ⟨ruleLine (u "dependencies") rd, ruleLine (u "version")
    (if strictEqStr vv (u "0.0.0") then u "Forever in development limbo" else OK), ?_⟩
  simp [checkFile, tryBlock, hr, hj, hrs, forEachRule, resolve_start, hs, hvd, hrd, hvv,
    version, hb]

/-- The report on a `package.json` when the `scripts.start` predicate throws. -/
theorem checkFile_package_of_error (host : Host) (filePath text : JSString) (content : Json)
    (hr : host.readFileSync filePath = .ok text) (hj : host.jsonParse text = .ok content)
    (hb : basename filePath = u "package.json") (m : JSString)
    (hs : scriptsStart host (orUndefined (nestedKeys content [u "scripts", u "start"])) =
      .error m) :
    checkFile host filePath =
      [headerLine (u "package.json"), errorLine filePath m, sighLine] := by
  have hrs : rulesEntries (basename filePath) =
      [(u "scripts.start", scriptsStart), (u "dependencies", dependencies),
       (u "version", version)] := by
    rw [hb]; rfl
  simp [checkFile, tryBlock, hr, hj, hrs, forEachRule, resolve_start, hs, hb]

/-- The `scripts.start` predicate on a parsed value or the absent value: it
returns on strings and arrays and throws on everything else. -/
theorem scriptsStart_cases (host : Host) (v : Option Json) :
    ((∃ s, v = some (.str s)) ∨ (∃ xs, v = some (.arr xs)) →
      ∃ r, scriptsStart host (orUndefined v) = .ok r) ∧
    (¬ ((∃ s, v = some (.str s)) ∨ (∃ xs, v = some (.arr xs))) →
      scriptsStart host (orUndefined v) = .error (host.typeErrorMessage (orUndefined v))) := by
  cases v with
  | none => exact ⟨fun h => (by rcases h with ⟨s, h⟩ | ⟨xs, h⟩ <;> cases h), fun _ => rfl⟩
  | some j =>
    cases j with
    | str s => exact ⟨fun _ => ⟨_, rfl⟩, fun h => absurd (Or.inl ⟨s, rfl⟩) h⟩
    | arr xs => exact ⟨fun _ => ⟨_, rfl⟩, fun h => absurd (Or.inr ⟨xs, rfl⟩) h⟩
    | null => exact ⟨fun h => (by rcases h with ⟨s, h⟩ | ⟨xs, h⟩ <;> cases h), fun _ => rfl⟩
    | bool b => exact ⟨fun h => (by rcases h with ⟨s, h⟩ | ⟨xs, h⟩ <;> cases h), fun _ => rfl⟩
    | num n => exact ⟨fun h => (by rcases h with ⟨s, h⟩ | ⟨xs, h⟩ <;> cases h), fun _ => rfl⟩
    | obj kvs => exact ⟨fun h => (by rcases h with ⟨s, h⟩ | ⟨xs, h⟩ <;> cases h), fun _ => rfl⟩

/-- The line of a rule: the marker chosen by the verdict, the path, a colon and a
space, the verdict. -/
theorem ruleLine_eq (path result : JSString) :
    ruleLine path result =
      (if result = u "OK" then u "  ✓ " else u "  ⚠️  ") ++ path ++ u ": " ++ result := by
  by_cases h : result = u "OK"
  · simp [ruleLine, OK, h]
  · simp [ruleLine, OK, h]

/-- The report on a file with a rule set of the table when no predicate throws. -/
theorem checkFile_of_no_throw (host : Host) (filePath text : JSString) (content : Json)
    (rs : List (JSString × Check))
    (hr : host.readFileSync filePath = .ok text) (hj : host.jsonParse text = .ok content)
    (hown : ownRules (basename filePath) RULES = some rs)
    (hno : ∀ pc ∈ rs, ∀ v, resolve host content pc.1 = .ok v → ∃ r, pc.2 host v = .ok r) :
    ∃ results : List JSString,
      List.Forall₂
        (fun pc r => ∃ v, resolve host content pc.1 = .ok v ∧ pc.2 host v = .ok r)
        rs results ∧
      checkFile host filePath =
        [u "\n🔍 Checking " ++ basename filePath ++ u ":"]
          ++ List.zipWith
              (fun pc r =>
                (if r = u "OK" then u "  ✓ " else u "  ⚠️  ") ++ pc.1 ++ u ": " ++ r)
              rs results
          ++ [u "  ✓ Valid JSON (at least it's not XML)"] := by
  have hrs := rulesEntries_of_ownRules_some _ rs hown
  obtain ⟨results, hf, hloop⟩ := forEachRule_of_no_throw host content rs (fun pc hpc => by
    have hv := resolve_rule_path host content _ rs hown pc hpc
    obtain ⟨r, hc⟩ := hno pc hpc _ hv
    exact ⟨_, r, hv, hc⟩)
  refine ⟨results, hf, ?_⟩
  have hz : List.zipWith (fun pc r => ruleLine pc.1 r) rs results =
      List.zipWith
        (fun (pc : JSString × Check) r =>
          (if r = u "OK" then u "  ✓ " else u "  ⚠️  ") ++ pc.1 ++ u ": " ++ r)
        rs results := by
    congr 1
    funext pc r
    exact ruleLine_eq pc.1 r
  rw [← hz]
  simp [checkFile, tryBlock, hr, hj, hrs, hloop, headerLine, validLine]

theorem ownRules_some_of_recognised (name : JSString)
    (hb : name = u "package.json" ∨ name = u "tsconfig.json" ∨ name = u ".eslintrc.json") :
    ∃ rs, ownRules name RULES = some rs := by
  rcases hb with h | h | h <;> rw [h] <;> exact ⟨_, rfl⟩

/-- The walk follows stored keys: when the nested keys hold a value, the walk
returns it, whatever the keys are. -/
theorem walk_of_nestedKeys (host : Host) (segs : List JSString) :
    ∀ (c v : Json), nestedKeys c segs = some v → walk host (.json c) segs = .ok (.json v) := by
  induction segs with
  | nil =>
    intro c v h
    simp only [nestedKeys, Option.some.injEq] at h
    rw [h]; rfl
  | cons key rest ih =>
    intro c v h
    cases c with
    | obj kvs =>
      simp only [nestedKeys, ownKey] at h
      cases hk : ownProp key kvs with
      | none => rw [hk] at h; cases h
      | some w =>
        rw [hk] at h
        simp only [walk, getProp, hk]
        exact ih w v h
    | null => simp [nestedKeys, ownKey] at h
    | bool b => simp [nestedKeys, ownKey] at h
    | num n => simp [nestedKeys, ownKey] at h
    | str t => simp [nestedKeys, ownKey] at h
    | arr xs => simp [nestedKeys, ownKey] at h

/-- The walk of a path through stored keys continues from the value they hold. -/
theorem walk_append_of_nestedKeys (host : Host) (pre segs : List JSString) :
    ∀ (c w : Json), nestedKeys c pre = some w →
      walk host (.json c) (pre ++ segs) = walk host (.json w) segs := by
  induction pre with
  | nil =>
    intro c w h
    simp only [nestedKeys, Option.some.injEq] at h
    rw [h]; rfl
  | cons key rest ih =>
    intro c w h
    cases c with
    | obj kvs =>
      simp only [nestedKeys, ownKey] at h
      cases hk : ownProp key kvs with
      | none => rw [hk] at h; cases h
      | some x =>
        rw [hk] at h
        simp only [List.cons_append, walk, getProp, hk]
        exact ih x w h
    | null => simp [nestedKeys, ownKey] at h
    | bool b => simp [nestedKeys, ownKey] at h
    | num n => simp [nestedKeys, ownKey] at h
    | str t => simp [nestedKeys, ownKey] at h
    | arr xs => simp [nestedKeys, ownKey] at h

theorem walk_undefined (host : Host) (segs : List JSString) :
    walk host .undefined segs = .ok .undefined := by
  cases segs with
  | nil => rfl
  | cons part rest => rfl

theorem walk_null_cons (host : Host) (part : JSString) (rest : List JSString) :
    walk host (.json .null) (part :: rest) = .ok .undefined := rfl

/-- The paths of the rule table are made of plain keys. -/
theorem rule_path_segments_plain :
    ∀ p ∈ [u "scripts.start", u "dependencies", u "version", u "compilerOptions.target",
        u "compilerOptions.strict", u "rules"],
      ∀ seg ∈ splitDot p, plainKey seg = true := by
  decide

/-! ## The claims -/

/-- C1 (the code at the failing input). The sample file `package.json` is read,
and its text `\x7b\x7d` parses to the empty object; `checkFile` prints the header,
then the failure annotation carrying the message of the TypeError thrown by the
`scripts.start` predicate on the absent value, and no acknowledgment. -/
theorem C1_checkFile_parsed_package_json_prints_failure :
    sampleHost.readFileSync (u "package.json") = .ok (u "\x7b\x7d") ∧
    sampleHost.jsonParse (u "\x7b\x7d") = .ok (.obj []) ∧
    checkFile sampleHost (u "package.json") =
      [u "\n🔍 Checking package.json:",
       u "\n💥 package.json: Cannot read properties of undefined (reading 'includes')",
       u "  (This is why we can't have nice things)"] ∧
    u "  ✓ Valid JSON (at least it's not XML)" ∉ checkFile sampleHost (u "package.json") := by
  refine ⟨rfl, rfl, by decide, by decide⟩

/-- C2 (the code at the failing input). On every host the `scripts.start`
predicate throws on the absent value and on `null`, with the message of the
TypeError of the host, while the five other predicates return a verdict on every
value. -/
theorem C2_scriptsStart_throws_on_absent (host : Host) :
    scriptsStart host .undefined = .error (host.typeErrorMessage .undefined) ∧
    scriptsStart host (.json .null) = .error (host.typeErrorMessage (.json .null)) ∧
    (∀ v : JSVal, (∃ r, dependencies host v = .ok r) ∧ (∃ r, version host v = .ok r) ∧
      (∃ r, target host v = .ok r) ∧ (∃ r, strict host v = .ok r) ∧
      (∃ r, rules host v = .ok r)) := by
  exact ⟨rfl, rfl, fun v =>
    ⟨dependencies_total host v, ⟨_, rfl⟩, ⟨_, rfl⟩, ⟨_, rfl⟩, rules_total host v⟩⟩

/-- C3. When the file cannot be read, or its text does not parse, with message
`m`, `checkFile` returns, and what it printed is exactly the failure annotation,
made of the file path and of `m`, and the fixed line after it: no header, no rule
line and no acknowledgment. -/
theorem C3_checkFile_unreadable (host : Host) (filePath m : JSString)
    (h : host.readFileSync filePath = .error m ∨
      ∃ text, host.readFileSync filePath = .ok text ∧ host.jsonParse text = .error m) :
    checkFile host filePath =
      [u "\n💥 " ++ filePath ++ u ": " ++ m, u "  (This is why we can't have nice things)"] ∧
    (∀ name, headerLine name ∉ checkFile host filePath) ∧
    (∀ path result, ruleLine path result ∉ checkFile host filePath) ∧
    validLine ∉ checkFile host filePath := by
  have hout : checkFile host filePath = [errorLine filePath m, sighLine] := by
    rcases h with h | ⟨text, h1, h2⟩
    · simp [checkFile, tryBlock, h]
    · simp [checkFile, tryBlock, h1, h2]
  rw [hout]
  refine ⟨rfl, fun name => ?_, fun path result => ?_, ?_⟩
  · simp [headerLine_ne_errorLine, headerLine_ne_sighLine]
  · simp [ruleLine_ne_errorLine, ruleLine_ne_sighLine]
  · simp [(errorLine_ne_validLine filePath m).symm, sighLine_ne_validLine.symm]

/-- C3 at concrete inputs: the sample file `broken.json`, whose text `\x7b not json`
does not parse. -/
theorem C3_checkFile_unreadable_witness :
    checkFile sampleHost (u "broken.json") =
      [u "\n💥 broken.json: Unexpected token n in JSON at position 2",
       u "  (This is why we can't have nice things)"] :=
  (C3_checkFile_unreadable sampleHost (u "broken.json")
    (u "Unexpected token n in JSON at position 2")
    (Or.inr ⟨u "\x7b not json", rfl, rfl⟩)).1

/-- C4. For a file that is read and parses, whatever the parsed value, and whose
basename is none of `package.json`, `tsconfig.json`, `.eslintrc.json` (it may name
an inherited property such as `constructor`), `checkFile` prints the header and
the acknowledgment and nothing else: one acknowledgment, no rule line. -/
theorem C4_checkFile_unrecognised_basename (host : Host) (filePath text : JSString)
    (content : Json)
    (hr : host.readFileSync filePath = .ok text) (hj : host.jsonParse text = .ok content)
    (hp : basename filePath ≠ u "package.json")
    (ht : basename filePath ≠ u "tsconfig.json")
    (he : basename filePath ≠ u ".eslintrc.json") :
    checkFile host filePath =
      [u "\n🔍 Checking " ++ basename filePath ++ u ":",
       u "  ✓ Valid JSON (at least it's not XML)"] ∧
    (checkFile host filePath).count validLine = 1 ∧
    (∀ path result, ruleLine path result ∉ checkFile host filePath) := by
  have hrules := rulesEntries_of_ownRules_none _ (ownRules_none _ hp ht he)
  have hout : checkFile host filePath = [headerLine (basename filePath), validLine] := by
    simp [checkFile, tryBlock, hr, hj, hrules, forEachRule]
  rw [hout]
  refine ⟨rfl, ?_, fun path result => ?_⟩
  · simp [List.count_cons, headerLine_ne_validLine]
  · simp [ruleLine_ne_headerLine, ruleLine_ne_validLine]

/-- C4 at concrete inputs: the sample file `lib/constructor`, whose text is `null`. -/
theorem C4_checkFile_unrecognised_basename_witness :
    checkFile sampleHost (u "lib/constructor") =
      [u "\n🔍 Checking constructor:", u "  ✓ Valid JSON (at least it's not XML)"] :=
  (C4_checkFile_unrecognised_basename sampleHost (u "lib/constructor") (u "null") .null
    rfl rfl (by decide) (by decide) (by decide)).1

/-- C5. For a file that is read and parses, whose basename is one of
`package.json`, `tsconfig.json`, `.eslintrc.json`, and for which no predicate of
its rule set throws on the value resolved at its path, `checkFile` prints exactly
the header, then one line per rule of the rule set, in the order of the table,
then the acknowledgment. The line of a rule is the marker (the pass marker when
the verdict is `OK`, the warning marker otherwise), the path of the rule, a colon
and a space, and the verdict of its predicate on the value resolved at that path;
a rule whose path resolves to the absent value has its line like the others. The
rule sets are, in order: `scripts.start`, `dependencies`, `version` for
`package.json`; `compilerOptions.target`, `compilerOptions.strict` for
`tsconfig.json`; `rules` for `.eslintrc.json`. -/
theorem C5_checkFile_recognised_basename (host : Host) (filePath text : JSString)
    (content : Json)
    (hr : host.readFileSync filePath = .ok text) (hj : host.jsonParse text = .ok content)
    (hb : basename filePath = u "package.json" ∨ basename filePath = u "tsconfig.json" ∨
      basename filePath = u ".eslintrc.json")
    (hno : ∀ pc ∈ rulesEntries (basename filePath), ∀ v,
      resolve host content pc.1 = .ok v → ∃ r, pc.2 host v = .ok r) :
    (∃ results : List JSString,
      List.Forall₂
        (fun pc r => ∃ v, resolve host content pc.1 = .ok v ∧ pc.2 host v = .ok r)
        (rulesEntries (basename filePath)) results ∧
      checkFile host filePath =
        [u "\n🔍 Checking " ++ basename filePath ++ u ":"]
          ++ List.zipWith
              (fun pc r =>
                (if r = u "OK" then u "  ✓ " else u "  ⚠️  ") ++ pc.1 ++ u ": " ++ r)
              (rulesEntries (basename filePath)) results
          ++ [u "  ✓ Valid JSON (at least it's not XML)"]) ∧
    rulesEntries (u "package.json") =
      [(u "scripts.start", scriptsStart), (u "dependencies", dependencies),
       (u "version", version)] ∧
    rulesEntries (u "tsconfig.json") =
      [(u "compilerOptions.target", target), (u "compilerOptions.strict", strict)] ∧
    rulesEntries (u ".eslintrc.json") = [(u "rules", rules)] := by
  refine ⟨?_, rfl, rfl, rfl⟩
  obtain ⟨rs, hown⟩ := ownRules_some_of_recognised _ hb
  have hrs := rulesEntries_of_ownRules_some _ rs hown
  rw [hrs] at hno ⊢
  exact checkFile_of_no_throw host filePath text content rs hr hj hown hno

/-- C5 at concrete inputs: the sample file `app/package.json`, with a start script
`node app.js`, no key `dependencies`, and version `0.0.0`. The report is the
header, the three rule lines in table order (the one of the absent `dependencies`
included) and the acknowledgment. -/
theorem C5_checkFile_recognised_basename_witness :
    checkFile sampleHost (u "app/package.json") =
      [u "\n🔍 Checking package.json:",
       u "  ✓ scripts.start: OK",
       u "  ✓ dependencies: OK",
       u "  ⚠️  version: Forever in development limbo",
       u "  ✓ Valid JSON (at least it's not XML)"] := by
  have hs : resolve sampleHost
      (.obj [(u "scripts", .obj [(u "start", .str (u "node app.js"))]),
             (u "version", .str (u "0.0.0"))]) (u "scripts.start") =
      .ok (.json (.str (u "node app.js"))) := rfl
  have hd : resolve sampleHost
      (.obj [(u "scripts", .obj [(u "start", .str (u "node app.js"))]),
             (u "version", .str (u "0.0.0"))]) (u "dependencies") = .ok .undefined := rfl
  have hv : resolve sampleHost
      (.obj [(u "scripts", .obj [(u "start", .str (u "node app.js"))]),
             (u "version", .str (u "0.0.0"))]) (u "version") =
      .ok (.json (.str (u "0.0.0"))) := rfl
  have he : rulesEntries (basename (u "app/package.json")) =
      [(u "scripts.start", scriptsStart), (u "dependencies", dependencies),
       (u "version", version)] := rfl
  obtain ⟨results, hf, hout⟩ :=
    (C5_checkFile_recognised_basename sampleHost (u "app/package.json")
      (u "\x7b\"scripts\":\x7b\"start\":\"node app.js\"\x7d,\"version\":\"0.0.0\"\x7d")
      (.obj [(u "scripts", .obj [(u "start", .str (u "node app.js"))]),
             (u "version", .str (u "0.0.0"))])
      rfl rfl (Or.inl (by decide))
      (by
        intro pc hpc v hpv
        rw [he] at hpc
        simp only [List.mem_cons, List.mem_singleton, List.not_mem_nil, or_false] at hpc
        rcases hpc with h | h | h
        · subst h
          rw [hs] at hpv
          cases hpv
          exact ⟨_, rfl⟩
        · subst h; exact dependencies_total sampleHost v
        · subst h; exact ⟨_, rfl⟩)).1
  rw [he] at hf hout
  obtain ⟨r1, t1, ⟨v1, hv1, hc1⟩, hf1, rfl⟩ := List.forall₂_cons_left_iff.mp hf
  obtain ⟨r2, t2, ⟨v2, hv2, hc2⟩, hf2, rfl⟩ := List.forall₂_cons_left_iff.mp hf1
  obtain ⟨r3, t3, ⟨v3, hv3, hc3⟩, hf3, rfl⟩ := List.forall₂_cons_left_iff.mp hf2
  have ht3 : t3 = [] := List.forall₂_nil_left_iff.mp hf3
  subst ht3
  simp only at hv1 hv2 hv3 hc1 hc2 hc3
  rw [hs] at hv1
  rw [hd] at hv2
  rw [hv] at hv3
  cases hv1
  cases hv2
  cases hv3
  have e1 : scriptsStart sampleHost (.json (.str (u "node app.js"))) = .ok (u "OK") := rfl
  have e2 : dependencies sampleHost .undefined = .ok (u "OK") := rfl
  have e3 : version sampleHost (.json (.str (u "0.0.0"))) =
      .ok (u "Forever in development limbo") := rfl
  rw [e1] at hc1
  rw [e2] at hc2
  rw [e3] at hc3
  cases hc1
  cases hc2
  cases hc3
  rw [hout]
  decide

/-- C6. The walk of `checkFile`, on every parsed value `c`. For every dotted path:
when `c` and every value on the way is an object that has the next segment as a
key, the walk returns the value stored at the nested keys, a stored `null` as
`null`; when a value on the way is `null`, or the walk starts from the absent
value, it returns `undefined`. The paths the walk is given are the six paths of
the rule table; for each of them the walk never throws, and it returns
`undefined` whenever the nested keys hold no value, because a segment is missing
or a value on the way is `null`, absent or not an object. -/
theorem C6_resolve_nested_keys (host : Host) (c : Json) :
    (∀ (p : JSString) (v : Json), nestedKeys c (splitDot p) = some v →
      resolve host c p = .ok (.json v)) ∧
    (∀ p : JSString, nestedKeys c (splitDot p) = some .null →
      resolve host c p = .ok (.json .null)) ∧
    (∀ (p : JSString) (pre : List JSString) (part : JSString) (rest : List JSString),
      splitDot p = pre ++ part :: rest → nestedKeys c pre = some .null →
      resolve host c p = .ok .undefined) ∧
    (∀ segs : List JSString, walk host .undefined segs = .ok .undefined) ∧
    (RULES.map (fun fr => fr.2.map Prod.fst)).flatten =
      [u "scripts.start", u "dependencies", u "version", u "compilerOptions.target",
       u "compilerOptions.strict", u "rules"] ∧
    (∀ p ∈ [u "scripts.start", u "dependencies", u "version", u "compilerOptions.target",
        u "compilerOptions.strict", u "rules"],
      resolve host c p = .ok (orUndefined (nestedKeys c (splitDot p))) ∧
      (nestedKeys c (splitDot p) = none → resolve host c p = .ok .undefined)) := by
  refine ⟨fun p v h => walk_of_nestedKeys host _ c v h,
    fun p h => walk_of_nestedKeys host _ c .null h, fun p pre part rest hp hn => ?_,
    walk_undefined host, by decide, fun p hp => ?_⟩
  · rw [resolve, hp, walk_append_of_nestedKeys host pre (part :: rest) c .null hn]
    rfl
  · have hw := walk_of_plainKeys host (splitDot p) c (rule_path_segments_plain p hp)
    refine ⟨hw, fun hn => ?_⟩
    rw [resolve, hw, hn]; rfl

/-- C6 at concrete inputs, on the path `compilerOptions.strict`: the document that
stores `false` there gives `false`; the document whose `compilerOptions` is `null`
gives `undefined`; the empty document gives `undefined`. On the path `rules`, the
document that stores `null` there gives `null`. -/
theorem C6_resolve_nested_keys_witness :
    resolve sampleHost (.obj [(u "compilerOptions", .obj [(u "strict", .bool false)])])
      (u "compilerOptions.strict") = .ok (.json (.bool false)) ∧
    resolve sampleHost (.obj [(u "compilerOptions", .null)])
      (u "compilerOptions.strict") = .ok .undefined ∧
    resolve sampleHost (.obj []) (u "compilerOptions.strict") = .ok .undefined ∧
    resolve sampleHost (.obj [(u "rules", .null)]) (u "rules") = .ok (.json .null) :=
  ⟨(C6_resolve_nested_keys sampleHost
      (.obj [(u "compilerOptions", .obj [(u "strict", .bool false)])])).1
      (u "compilerOptions.strict") (.bool false) rfl,
   (C6_resolve_nested_keys sampleHost (.obj [(u "compilerOptions", .null)])).2.2.1
      (u "compilerOptions.strict") [u "compilerOptions"] (u "strict") [] (by decide) rfl,
   ((C6_resolve_nested_keys sampleHost (.obj [])).2.2.2.2.2
      (u "compilerOptions.strict") (by decide)).2 rfl,
   (C6_resolve_nested_keys sampleHost (.obj [(u "rules", .null)])).2.1 (u "rules") rfl⟩

/-- C7. The `dependencies` predicate returns `Dependency addiction detected` for
every object with 51 or more keys, and `OK` for every object with 50 or fewer
keys, for the empty object and for the absent value. -/
theorem C7_dependencies_boundary (host : Host) (kvs : List (JSString × Json)) :
    (51 ≤ kvs.length →
      dependencies host (.json (.obj kvs)) = .ok (u "Dependency addiction detected")) ∧
    (kvs.length ≤ 50 → dependencies host (.json (.obj kvs)) = .ok (u "OK")) ∧
    dependencies host (.json (.obj [])) = .ok (u "OK") ∧
    dependencies host .undefined = .ok (u "OK") := by
  have hd : dependencies host (.json (.obj kvs)) =
      .ok (if kvs.length > 50 then u "Dependency addiction detected" else OK) := by
    simp [dependencies, orEmptyObject, truthy, objectKeys]
  refine ⟨fun h => ?_, fun h => ?_, rfl, rfl⟩
  · rw [hd, if_pos (by omega)]
  · rw [hd, if_neg (by omega)]; rfl

/-- C7 at concrete inputs: objects with the 51 keys `0` to `50` and with the 50
keys `0` to `49`. -/
theorem C7_dependencies_boundary_witness :
    dependencies sampleHost
        (.json (.obj ((List.range 51).map (fun i => (u (Nat.repr i), Json.null))))) =
      .ok (u "Dependency addiction detected") ∧
    dependencies sampleHost
        (.json (.obj ((List.range 50).map (fun i => (u (Nat.repr i), Json.null))))) =
      .ok (u "OK") :=
  ⟨(C7_dependencies_boundary sampleHost _).1 (by simp),
   (C7_dependencies_boundary sampleHost _).2.1 (by simp)⟩

/-- C8. For a file named `tsconfig.json` that is read and parses, `checkFile`
prints the header, the line of the target rule, the line of the strict rule and
the acknowledgment. The line of the strict rule carries `Living dangerously` when
the value at the nested keys `compilerOptions`, `strict` is falsy: absent (also
when `compilerOptions` is absent, `null` or not an object), `null`, `false` or
`0`. It carries `OK` when that value is truthy: `true`, a non-zero number, a
non-empty string, an object or an array. -/
theorem C8_tsconfig_strict_line (host : Host) (filePath text : JSString) (content : Json)
    (hr : host.readFileSync filePath = .ok text) (hj : host.jsonParse text = .ok content)
    (hb : basename filePath = u "tsconfig.json") :
    (∃ targetLine,
      checkFile host filePath =
        [u "\n🔍 Checking tsconfig.json:",
         targetLine,
         if truthy (orUndefined (nestedKeys content [u "compilerOptions", u "strict"]))
         then u "  ✓ compilerOptions.strict: OK"
         else u "  ⚠️  compilerOptions.strict: Living dangerously",
         u "  ✓ Valid JSON (at least it's not XML)"]) ∧
    (truthy (orUndefined none) = false ∧ truthy (.json .null) = false ∧
      truthy (.json (.bool false)) = false ∧ truthy (.json (.num (.fin 0))) = false) ∧
    (truthy (.json (.bool true)) = true ∧
      (∀ q : ℚ, q ≠ 0 → truthy (.json (.num (.fin q))) = true) ∧
      (∀ s : JSString, s ≠ [] → truthy (.json (.str s)) = true) ∧
      (∀ kvs, truthy (.json (.obj kvs)) = true) ∧
      (∀ xs, truthy (.json (.arr xs)) = true)) := by
  refine ⟨?_, ⟨rfl, rfl, rfl, by simp [truthy, JSNum.isZero]⟩,
    ⟨rfl, fun q hq => by simp [truthy, JSNum.isZero, hq],
      fun s hs => by simp [truthy, hs], fun _ => rfl, fun _ => rfl⟩⟩
  have hrs : rulesEntries (basename filePath) =
      [(u "compilerOptions.target", target), (u "compilerOptions.strict", strict)] := by
    rw [hb]; rfl
  have hplain : ∀ seg ∈ [u "compilerOptions", u "strict"], plainKey seg = true := by decide
  have hplain2 : ∀ seg ∈ [u "compilerOptions", u "target"], plainKey seg = true := by decide
  have hs : resolve host content (u "compilerOptions.strict") =
      .ok (orUndefined (nestedKeys content [u "compilerOptions", u "strict"])) := by
    rw [resolve, splitDot_strict]
    exact walk_of_plainKeys host _ content hplain
  have ht : resolve host content (u "compilerOptions.target") =
      .ok (orUndefined (nestedKeys content [u "compilerOptions", u "target"])) := by
    rw [resolve, splitDot_target]
    exact walk_of_plainKeys host _ content hplain2
  have hh : headerLine (u "tsconfig.json") = u "\n🔍 Checking tsconfig.json:" := by decide
  have hok : ruleLine (u "compilerOptions.strict") OK = u "  ✓ compilerOptions.strict: OK" := by
    decide
  have hwarn : ruleLine (u "compilerOptions.strict") (u "Living dangerously") =
      u "  ⚠️  compilerOptions.strict: Living dangerously" := by decide
  refine ⟨ruleLine (u "compilerOptions.target")
    (if [u "es3", u "es5"].any
        (strictEqStr (orUndefined (nestedKeys content [u "compilerOptions", u "target"])))
     then u "Living in the past" else OK), ?_⟩
  simp only [checkFile, tryBlock, hr, hj, hrs, forEachRule, hs, ht, target, strict, hb, hh]
  by_cases htr : truthy (orUndefined (nestedKeys content [u "compilerOptions", u "strict"])) = true
  · simp [htr, hok, validLine]
  · simp [htr, hwarn, validLine]

/-- C8 at concrete inputs: the sample file `cfg/tsconfig.json`, where
`compilerOptions.strict` is `false`. -/
theorem C8_tsconfig_strict_line_witness :
    ∃ targetLine,
      checkFile sampleHost (u "cfg/tsconfig.json") =
        [u "\n🔍 Checking tsconfig.json:",
         targetLine,
         u "  ⚠️  compilerOptions.strict: Living dangerously",
         u "  ✓ Valid JSON (at least it's not XML)"] :=
  (C8_tsconfig_strict_line sampleHost (u "cfg/tsconfig.json")
    (u "\x7b\"compilerOptions\":\x7b\"strict\":false\x7d\x7d")
    (.obj [(u "compilerOptions", .obj [(u "strict", .bool false)])])
    rfl rfl (by decide)).1

/-- C9. The `version` predicate returns `Forever in development limbo`, which is
not `OK`, on the string `0.0.0`; it returns `OK` on every other string, on every
value that is not a string, and on the absent value. -/
theorem C9_version_limbo (host : Host) :
    version host (.json (.str (u "0.0.0"))) = .ok (u "Forever in development limbo") ∧
    u "Forever in development limbo" ≠ u "OK" ∧
    (∀ s : JSString, s ≠ u "0.0.0" → version host (.json (.str s)) = .ok (u "OK")) ∧
    (∀ v : JSVal, (∀ s, v ≠ .json (.str s)) → version host v = .ok (u "OK")) ∧
    version host .undefined = .ok (u "OK") := by
  refine ⟨rfl, by decide, fun s hs => ?_, fun v hv => ?_, rfl⟩
  · simp [version, strictEqStr, hs, OK]
  · cases v with
    | undefined => rfl
    | native name => rfl
    | json j =>
      cases j with
      | str s => exact absurd rfl (hv s)
      | null => rfl
      | bool b => rfl
      | num n => rfl
      | arr xs => rfl
      | obj kvs => rfl

/-- C9 at concrete inputs: the strings `0.0.00`, `0.0` and the empty string, and
the number `0`. -/
theorem C9_version_limbo_witness :
    version sampleHost (.json (.str (u "0.0.00"))) = .ok (u "OK") ∧
    version sampleHost (.json (.str (u "0.0"))) = .ok (u "OK") ∧
    version sampleHost (.json (.str (u ""))) = .ok (u "OK") ∧
    version sampleHost (.json (.num (.fin 0))) = .ok (u "OK") :=
  ⟨(C9_version_limbo sampleHost).2.2.1 (u "0.0.00") (by decide),
   (C9_version_limbo sampleHost).2.2.1 (u "0.0") (by decide),
   (C9_version_limbo sampleHost).2.2.1 (u "") (by decide),
   (C9_version_limbo sampleHost).2.2.2.1 (.json (.num (.fin 0)))
     (fun s h => by cases h)⟩

/-- C10. On a string `s` the `scripts.start` predicate returns `OK` exactly when
`node` occurs in `s` as a run of consecutive code units (the comparison is on code
units, so it is case-sensitive); otherwise it returns
`Why would you start without node?`. -/
theorem C10_scriptsStart_string (host : Host) (s : JSString) :
    (scriptsStart host (.json (.str s)) = .ok (u "OK") ↔ ∃ a b, s = a ++ u "node" ++ b) ∧
    ((¬ ∃ a b, s = a ++ u "node" ++ b) →
      scriptsStart host (.json (.str s)) = .ok (u "Why would you start without node?")) := by
  have hne : u "Why would you start without node?" ≠ OK := by decide
  have hiff := includes_iff (u "node") s
  by_cases hi : includes s (u "node") = true
  · have hex := hiff.mp hi
    refine ⟨⟨fun _ => hex, fun _ => ?_⟩, fun hn => absurd hex hn⟩
    simp [scriptsStart, hi, OK]
  · have hnex : ¬ ∃ a b, s = a ++ u "node" ++ b := fun h => hi (hiff.mpr h)
    have hv : scriptsStart host (.json (.str s)) =
        .ok (u "Why would you start without node?") := by
      simp [scriptsStart, hi]
    refine ⟨⟨fun h => ?_, fun h => absurd h hnex⟩, fun _ => hv⟩
    rw [hv] at h
    exact absurd (Except.ok.inj h) hne

/-- C10 at concrete inputs: `nodemon app.js` is accepted and `Node app.js` is not. -/
theorem C10_scriptsStart_string_witness :
    scriptsStart sampleHost (.json (.str (u "nodemon app.js"))) = .ok (u "OK") ∧
    scriptsStart sampleHost (.json (.str (u "Node app.js"))) =
      .ok (u "Why would you start without node?") :=
  ⟨(C10_scriptsStart_string sampleHost (u "nodemon app.js")).1.mpr
      ⟨[], u "mon app.js", by decide⟩,
   (C10_scriptsStart_string sampleHost (u "Node app.js")).2
      (fun h => absurd ((includes_iff (u "node") (u "Node app.js")).mpr h) (by decide))⟩

/-- C11. On every value, absent included, the `compilerOptions.target` predicate
returns `Living in the past`, which is not `OK`, exactly when the value is the
string `es3` or the string `es5`, and `OK` otherwise; the strings `ES3` and `ES5`
give `OK`. -/
theorem C11_target_legacy (host : Host) (v : JSVal) :
    (target host v = .ok (u "Living in the past") ↔
      v = .json (.str (u "es3")) ∨ v = .json (.str (u "es5"))) ∧
    (¬ (v = .json (.str (u "es3")) ∨ v = .json (.str (u "es5"))) →
      target host v = .ok (u "OK")) ∧
    u "Living in the past" ≠ u "OK" ∧
    target host .undefined = .ok (u "OK") ∧
    target host (.json (.str (u "ES3"))) = .ok (u "OK") ∧
    target host (.json (.str (u "ES5"))) = .ok (u "OK") := by
  have hne : OK ≠ u "Living in the past" := by decide
  have key : ∀ s : JSString, target host (.json (.str s)) =
      .ok (if s = u "es3" ∨ s = u "es5" then u "Living in the past" else OK) := by
    intro s
    by_cases h3 : s = u "es3"
    · simp [target, strictEqStr, h3]
    · by_cases h5 : s = u "es5"
      · simp [target, strictEqStr, h5]
      · simp [target, strictEqStr, h3, h5]
  have other : (∀ s, v ≠ .json (.str s)) → target host v = .ok OK := by
    intro hv
    cases v with
    | undefined => rfl
    | native name => rfl
    | json j =>
      cases j with
      | str s => exact absurd rfl (hv s)
      | null => rfl
      | bool b => rfl
      | num n => rfl
      | arr xs => rfl
      | obj kvs => rfl
  have hiff : (target host v = .ok (u "Living in the past") ↔
      v = .json (.str (u "es3")) ∨ v = .json (.str (u "es5"))) ∧
      (¬ (v = .json (.str (u "es3")) ∨ v = .json (.str (u "es5"))) →
        target host v = .ok OK) := by
    by_cases hs : ∃ s, v = .json (.str s)
    · obtain ⟨s, rfl⟩ := hs
      rw [key s]
      by_cases hc : s = u "es3" ∨ s = u "es5"
      · rw [if_pos hc]
        refine ⟨⟨fun _ => ?_, fun _ => rfl⟩, fun hn => absurd ?_ hn⟩
        · rcases hc with h | h <;> simp [h]
        · rcases hc with h | h <;> simp [h]
      · rw [if_neg hc]
        refine ⟨⟨fun h => absurd (Except.ok.inj h) hne, fun h => ?_⟩, fun _ => rfl⟩
        exfalso
        apply hc
        rcases h with h | h
        · left; cases h; rfl
        · right; cases h; rfl
    · have hv : ∀ s, v ≠ .json (.str s) := fun s h => hs ⟨s, h⟩
      rw [other hv]
      refine ⟨⟨fun h => absurd (Except.ok.inj h) hne, fun h => ?_⟩, fun _ => rfl⟩
      rcases h with h | h <;> exact absurd h (hv _)
  exact ⟨hiff.1, hiff.2, by decide, rfl, rfl, rfl⟩

/-- C11 at concrete inputs: the number `5` is neither of the two strings and gets
`OK`. -/
theorem C11_target_legacy_witness :
    target sampleHost (.json (.num (.fin 5))) = .ok (u "OK") :=
  (C11_target_legacy sampleHost (.json (.num (.fin 5)))).2.1
    (fun h => by rcases h with h | h <;> cases h)

/-- C12. The `rules` predicate returns `Rules are for fools`, which is not `OK`, on
the absent value and on every value without an entry: `null`, every boolean,
every number, the empty string, the empty array and the empty object. It returns
`OK` on every value with at least one entry: a non-empty object, a non-empty
array, a non-empty string. -/
theorem C12_rules_entries (host : Host) :
    rules host .undefined = .ok (u "Rules are for fools") ∧
    rules host (.json .null) = .ok (u "Rules are for fools") ∧
    (∀ b, rules host (.json (.bool b)) = .ok (u "Rules are for fools")) ∧
    (∀ n, rules host (.json (.num n)) = .ok (u "Rules are for fools")) ∧
    rules host (.json (.str [])) = .ok (u "Rules are for fools") ∧
    rules host (.json (.arr [])) = .ok (u "Rules are for fools") ∧
    rules host (.json (.obj [])) = .ok (u "Rules are for fools") ∧
    (∀ kvs, kvs ≠ [] → rules host (.json (.obj kvs)) = .ok (u "OK")) ∧
    (∀ xs, xs ≠ [] → rules host (.json (.arr xs)) = .ok (u "OK")) ∧
    (∀ s, s ≠ [] → rules host (.json (.str s)) = .ok (u "OK")) ∧
    u "Rules are for fools" ≠ u "OK" := by
  refine ⟨rfl, rfl, fun b => ?_, fun n => ?_, rfl, rfl, rfl, fun kvs h => ?_, fun xs h => ?_,
    fun s h => ?_, by decide⟩
  · cases b <;> rfl
  · by_cases hz : n.isZero = true
    · simp [rules, truthy, hz]
    · simp [rules, truthy, hz, objectKeys]
  · simp [rules, truthy, objectKeys, h, OK]
  · simp [rules, truthy, objectKeys, h, OK]
  · simp [rules, truthy, objectKeys, h, OK]

/-- C12 at concrete inputs: an object with the one key `semi`, and the array
holding `1`. -/
theorem C12_rules_entries_witness :
    rules sampleHost (.json (.obj [(u "semi", .str (u "error"))])) = .ok (u "OK") ∧
    rules sampleHost (.json (.arr [.num (.fin 1)])) = .ok (u "OK") :=
  ⟨(C12_rules_entries sampleHost).2.2.2.2.2.2.2.1 _ (by simp),
   (C12_rules_entries sampleHost).2.2.2.2.2.2.2.2.1 _ (by simp)⟩

/-- C13. For every non-empty argument list, on every host, `main` returns, and what
it printed is the two banner lines, then what `checkFile` prints for each
argument, in argument order, then the completion line. What `checkFile` prints
for a path is the same on every state of the file system that gives the same
result for reading that path: it depends on no other file. -/
theorem C13_main_arguments (host : Host) (files : List JSString) (hne : files ≠ []) :
    main host files =
      [u "🧠 JSON Config Sanity Checker", u "Finding problems before they find you\n"]
        ++ (files.map (checkFile host)).flatten
        ++ [u "\n✅ Sanity check complete (your sanity not guaranteed)"] ∧
    (∀ (read : JSString → Except JSString JSString) (present : JSString → Bool)
        (p : JSString), read p = host.readFileSync p →
      checkFile (host.withFiles read present) p = checkFile host p) := by
  refine ⟨?_, fun read present p h => checkFile_withFiles host read present p h⟩
  have hl : ¬ files.length = 0 := fun h => hne (List.length_eq_zero.mp h)
  simp only [main, hl, if_false, flatten_eq_foldr]

/-- C13 at concrete inputs: the arguments `broken.json`, which does not parse, and
`lib/constructor`, on the sample host. The failure of the first does not stop the
second. -/
theorem C13_main_arguments_witness :
    main sampleHost [u "broken.json", u "lib/constructor"] =
      [u "🧠 JSON Config Sanity Checker", u "Finding problems before they find you\n",
       u "\n💥 broken.json: Unexpected token n in JSON at position 2",
       u "  (This is why we can't have nice things)",
       u "\n🔍 Checking constructor:",
       u "  ✓ Valid JSON (at least it's not XML)",
       u "\n✅ Sanity check complete (your sanity not guaranteed)"] :=
  (C13_main_arguments sampleHost [u "broken.json", u "lib/constructor"] (by decide)).1.trans
    (by decide)

/-- C14. With no argument, `main` prints the banner lines, then what `checkFile`
prints for each of `package.json`, `tsconfig.json`, `.eslintrc.json` that exists,
in that order, then the completion line; a default that does not exist adds
nothing. When none of the three exists, the output is the banner lines and the
completion line. -/
theorem C14_main_defaults (host : Host) :
    main host [] =
      [u "🧠 JSON Config Sanity Checker", u "Finding problems before they find you\n"]
        ++ (([u "package.json", u "tsconfig.json", u ".eslintrc.json"].filter
              host.existsSync).map (checkFile host)).flatten
        ++ [u "\n✅ Sanity check complete (your sanity not guaranteed)"] ∧
    ((∀ f ∈ [u "package.json", u "tsconfig.json", u ".eslintrc.json"],
        host.existsSync f = false) →
      main host [] =
        [u "🧠 JSON Config Sanity Checker", u "Finding problems before they find you\n",
         u "\n✅ Sanity check complete (your sanity not guaranteed)"]) := by
  have hm : main host [] =
      [u "🧠 JSON Config Sanity Checker", u "Finding problems before they find you\n"]
        ++ (([u "package.json", u "tsconfig.json", u ".eslintrc.json"].filter
              host.existsSync).map (checkFile host)).flatten
        ++ [u "\n✅ Sanity check complete (your sanity not guaranteed)"] := by
    simp only [main, List.length_nil, if_true, flatten_eq_foldr, commonFiles]
  refine ⟨hm, fun h => ?_⟩
  have hf : [u "package.json", u "tsconfig.json", u ".eslintrc.json"].filter host.existsSync
      = [] := by
    rw [List.filter_eq_nil_iff]
    intro f hf
    rw [h f hf]
    exact Bool.false_ne_true
  rw [hm, hf]
  rfl

/-- C14 at concrete inputs: on the host without any file the output is the banner
and the completion line; on the sample host, where `package.json` and
`tsconfig.json` exist and `.eslintrc.json` does not, the two are checked in that
order. -/
theorem C14_main_defaults_witness :
    main bareHost [] =
      [u "🧠 JSON Config Sanity Checker", u "Finding problems before they find you\n",
       u "\n✅ Sanity check complete (your sanity not guaranteed)"] ∧
    main sampleHost [] =
      [u "🧠 JSON Config Sanity Checker", u "Finding problems before they find you\n"]
        ++ checkFile sampleHost (u "package.json")
        ++ checkFile sampleHost (u "tsconfig.json")
        ++ [u "\n✅ Sanity check complete (your sanity not guaranteed)"] :=
  ⟨(C14_main_defaults bareHost).2 (fun _ _ => rfl),
   (C14_main_defaults sampleHost).1.trans (by decide)⟩

/-- C15. The rule set is selected by the basename of the path, compared as it is
written. For a directory `d` and a name among `package.json`, `tsconfig.json`,
`.eslintrc.json`, the basename of `d/name` is the name, and `checkFile` on
`d/name` applies the rule set the table holds under that name: `scripts.start`,
`dependencies`, `version` for `package.json`; `compilerOptions.target`,
`compilerOptions.strict` for `tsconfig.json`; `rules` for `.eslintrc.json`. When
no predicate throws, it prints the header with the name, one line per rule of
that set, and the acknowledgment. With the same contents the `try` block logs
the same lines and ends the same way on `d/name` as on the name, and when nothing
is thrown the two reports are equal. Every basename outside the three names,
such as `Package.json` or `package.json.bak`, gets no rule. -/
theorem C15_rules_by_basename (host : Host) (d name text : JSString) (content : Json)
    (hn : name = u "package.json" ∨ name = u "tsconfig.json" ∨ name = u ".eslintrc.json")
    (hd : host.readFileSync (d ++ u "/" ++ name) = .ok text)
    (h0 : host.readFileSync name = .ok text)
    (hj : host.jsonParse text = .ok content) :
    basename (d ++ u "/" ++ name) = name ∧
    basename name = name ∧
    rulesEntries (basename (d ++ u "/" ++ name)) = rulesEntries name ∧
    rulesEntries (u "package.json") =
      [(u "scripts.start", scriptsStart), (u "dependencies", dependencies),
       (u "version", version)] ∧
    rulesEntries (u "tsconfig.json") =
      [(u "compilerOptions.target", target), (u "compilerOptions.strict", strict)] ∧
    rulesEntries (u ".eslintrc.json") = [(u "rules", rules)] ∧
    ((∀ pc ∈ rulesEntries name, ∀ v,
        resolve host content pc.1 = .ok v → ∃ r, pc.2 host v = .ok r) →
      ∃ results : List JSString,
        List.Forall₂
          (fun pc r => ∃ v, resolve host content pc.1 = .ok v ∧ pc.2 host v = .ok r)
          (rulesEntries name) results ∧
        checkFile host (d ++ u "/" ++ name) =
          [u "\n🔍 Checking " ++ name ++ u ":"]
            ++ List.zipWith
                (fun pc r =>
                  (if r = u "OK" then u "  ✓ " else u "  ⚠️  ") ++ pc.1 ++ u ": " ++ r)
                (rulesEntries name) results
            ++ [u "  ✓ Valid JSON (at least it's not XML)"]) ∧
    tryBlock host (d ++ u "/" ++ name) = tryBlock host name ∧
    (∃ lines, (tryBlock host name).1 = headerLine name :: lines) ∧
    ((tryBlock host name).2 = none →
      checkFile host (d ++ u "/" ++ name) = checkFile host name) ∧
    (∀ other : JSString, other ≠ u "package.json" → other ≠ u "tsconfig.json" →
      other ≠ u ".eslintrc.json" → rulesEntries other = []) ∧
    rulesEntries (u "Package.json") = [] ∧
    rulesEntries (u "package.json.bak") = [] := by
  have hmem : name ∈ commonFiles := by
    rcases hn with h | h | h <;> subst h <;> decide
  obtain ⟨hne, hs⟩ := commonFiles_plain name hmem
  have hb1 := basename_of_dir d name hne hs
  have hb2 := basename_of_plain name hne hs
  have ht := tryBlock_of_basename host (d ++ u "/" ++ name) name (hd.trans h0.symm)
    (hb1.trans hb2.symm)
  refine ⟨hb1, hb2, by rw [hb1], rfl, rfl, rfl, fun hno => ?_, ht, ?_, fun hnone => ?_,
    fun other h1 h2 h3 => ?_, rfl, rfl⟩
  · obtain ⟨rs, hown⟩ := ownRules_some_of_recognised name hn
    have hrs := rulesEntries_of_ownRules_some name rs hown
    rw [hrs] at hno ⊢
    have hown2 : ownRules (basename (d ++ u "/" ++ name)) RULES = some rs := by
      rw [hb1]; exact hown
    have hout := checkFile_of_no_throw host (d ++ u "/" ++ name) text content rs hd hj
      hown2 hno
    rw [hb1] at hout
    exact hout
  · simp only [tryBlock, h0, hj, hb2]
    cases (forEachRule host content (rulesEntries name)).2 with
    | none => exact ⟨_, rfl⟩
    | some m => exact ⟨_, rfl⟩
  · unfold checkFile
    rw [ht]
    cases htb : tryBlock host name with
    | mk out thrown =>
      rw [htb] at hnone
      simp only at hnone
      subst hnone
      rfl
  · exact rulesEntries_of_ownRules_none other (ownRules_none other h1 h2 h3)

/-- C15 at concrete inputs: on the sample host `cfg/tsconfig.json` and
`tsconfig.json` hold the same text; the report on `cfg/tsconfig.json` has the
header of `tsconfig.json` and the lines of its two rules. -/
theorem C15_rules_by_basename_witness :
    checkFile sampleHost (u "cfg" ++ u "/" ++ u "tsconfig.json") =
      [u "\n🔍 Checking tsconfig.json:",
       u "  ✓ compilerOptions.target: OK",
       u "  ⚠️  compilerOptions.strict: Living dangerously",
       u "  ✓ Valid JSON (at least it's not XML)"] :=
  ((C15_rules_by_basename sampleHost (u "cfg") (u "tsconfig.json")
    (u "\x7b\"compilerOptions\":\x7b\"strict\":false\x7d\x7d")
    (.obj [(u "compilerOptions", .obj [(u "strict", .bool false)])])
    (Or.inr (Or.inl rfl)) rfl rfl rfl).2.2.2.2.2.2.2.2.2.1 (by decide)).trans (by decide)

/-- C16. A rule line is a marker, the path, a colon and a space, and the verdict.
The marker is the pass marker when the verdict is the string `OK` and the warning
marker for every other verdict; the two markers differ, and the path and the
verdict are printed the same way after either. Every line that `checkFile`
prints is the header, the acknowledgment, one of the two lines of the failure
annotation, or such a rule line, built from the path of a rule of the rule set
of the file and from the verdict of its predicate. -/
theorem C16_rule_line_form :
    (∀ path result : JSString,
      ruleLine path result =
        (if result = u "OK" then u "  ✓ " else u "  ⚠️  ") ++ path ++ u ": " ++ result) ∧
    u "  ✓ " ≠ u "  ⚠️  " ∧
    (∀ (host : Host) (filePath line : JSString), line ∈ checkFile host filePath →
      line = headerLine (basename filePath) ∨ line = validLine ∨
      (∃ m, line = errorLine filePath m) ∨ line = sighLine ∨
      ∃ pc ∈ rulesEntries (basename filePath), ∃ content v r,
        resolve host content pc.1 = .ok v ∧ pc.2 host v = .ok r ∧
        line = (if r = u "OK" then u "  ✓ " else u "  ⚠️  ") ++ pc.1 ++ u ": " ++ r) := by
  have hform : ∀ path result : JSString,
      ruleLine path result =
        (if result = u "OK" then u "  ✓ " else u "  ⚠️  ") ++ path ++ u ": " ++ result := by
    intro path result
    by_cases h : result = u "OK"
    · simp [ruleLine, OK, h]
    · simp [ruleLine, OK, h]
  refine ⟨hform, by decide, ?_⟩
  intro host filePath line hl
  unfold checkFile tryBlock at hl
  cases hr : host.readFileSync filePath with
  | error m =>
    simp only [hr, List.nil_append, List.mem_cons, List.mem_singleton, List.not_mem_nil,
      or_false] at hl
    rcases hl with h | h
    · exact Or.inr (Or.inr (Or.inl ⟨m, h⟩))
    · exact Or.inr (Or.inr (Or.inr (Or.inl h)))
  | ok text =>
    cases hj : host.jsonParse text with
    | error m =>
      simp only [hr, hj, List.nil_append, List.mem_cons, List.mem_singleton,
        List.not_mem_nil, or_false] at hl
      rcases hl with h | h
      · exact Or.inr (Or.inr (Or.inl ⟨m, h⟩))
      · exact Or.inr (Or.inr (Or.inr (Or.inl h)))
    | ok content =>
      have hrule : line ∈ (forEachRule host content (rulesEntries (basename filePath))).1 →
          ∃ pc ∈ rulesEntries (basename filePath), ∃ content v r,
            resolve host content pc.1 = .ok v ∧ pc.2 host v = .ok r ∧
            line = (if r = u "OK" then u "  ✓ " else u "  ⚠️  ") ++ pc.1 ++ u ": " ++ r := by
        intro h
        obtain ⟨pc, hpc, v, r, hv, hc, hline⟩ := mem_forEachRule host content _ line h
        exact ⟨pc, hpc, content, v, r, hv, hc, by rw [hline, hform]⟩
      cases hth : (forEachRule host content (rulesEntries (basename filePath))).2 with
      | none =>
        simp only [hr, hj, hth, List.mem_cons, List.mem_append, List.mem_singleton,
          List.not_mem_nil, or_false, List.cons_append] at hl
        rcases hl with h | h | h
        · exact Or.inl h
        · exact Or.inr (Or.inr (Or.inr (Or.inr (hrule h))))
        · exact Or.inr (Or.inl h)
      | some m =>
        simp only [hr, hj, hth, List.mem_cons, List.mem_append, List.mem_singleton,
          List.not_mem_nil, or_false, List.cons_append] at hl
        rcases hl with h | h | h | h
        · exact Or.inl h
        · exact Or.inr (Or.inr (Or.inr (Or.inr (hrule h))))
        · exact Or.inr (Or.inr (Or.inl ⟨m, h⟩))
        · exact Or.inr (Or.inr (Or.inr (Or.inl h)))

/-- C16 at concrete inputs: the two forms of the line of the rule `version`. -/
theorem C16_rule_line_form_witness :
    ruleLine (u "version") (u "OK") = u "  ✓ version: OK" ∧
    ruleLine (u "version") (u "Forever in development limbo") =
      u "  ⚠️  version: Forever in development limbo" :=
  ⟨(C16_rule_line_form.1 (u "version") (u "OK")).trans (by decide),
   (C16_rule_line_form.1 (u "version") (u "Forever in development limbo")).trans (by decide)⟩

/-- C17. For a file named `package.json` that is read and parses, the path
`scripts.start` resolves to the value `v` stored at the nested keys `scripts`,
`start`, or to `undefined` when there is none. `checkFile` prints the
acknowledgment exactly when `v` is a string or an array. In every other case
(no such value, `null`, a number, a boolean, an object) the `scripts.start`
predicate throws, and `checkFile` prints the header `Checking package.json`, the
failure annotation with the message of the error and the line after it: no rule
line and no acknowledgment. -/
theorem C17_package_json_start (host : Host) (filePath text : JSString) (content : Json)
    (v : Option Json)
    (hr : host.readFileSync filePath = .ok text) (hj : host.jsonParse text = .ok content)
    (hb : basename filePath = u "package.json")
    (hv : nestedKeys content [u "scripts", u "start"] = v) :
    resolve host content (u "scripts.start") = .ok (orUndefined v) ∧
    (u "  ✓ Valid JSON (at least it's not XML)" ∈ checkFile host filePath ↔
      (∃ s, v = some (.str s)) ∨ (∃ xs, v = some (.arr xs))) ∧
    (¬ ((∃ s, v = some (.str s)) ∨ (∃ xs, v = some (.arr xs))) →
      scriptsStart host (orUndefined v) = .error (host.typeErrorMessage (orUndefined v)) ∧
      checkFile host filePath =
        [u "\n🔍 Checking package.json:",
         u "\n💥 " ++ filePath ++ u ": " ++ host.typeErrorMessage (orUndefined v),
         u "  (This is why we can't have nice things)"] ∧
      (∀ path result, ruleLine path result ∉ checkFile host filePath)) := by
  subst hv
  have hres := resolve_start host content
  have hcases := scriptsStart_cases host (nestedKeys content [u "scripts", u "start"])
  have hh : headerLine (u "package.json") = u "\n🔍 Checking package.json:" := by decide
  have hthrow : ¬ ((∃ s, nestedKeys content [u "scripts", u "start"] = some (.str s)) ∨
      (∃ xs, nestedKeys content [u "scripts", u "start"] = some (.arr xs))) →
      checkFile host filePath =
        [headerLine (u "package.json"),
         errorLine filePath
           (host.typeErrorMessage (orUndefined (nestedKeys content [u "scripts", u "start"]))),
         sighLine] :=
    fun hn => checkFile_package_of_error host filePath text content hr hj hb _ (hcases.2 hn)
  refine ⟨hres, ⟨fun hmem => ?_, fun hsa => ?_⟩, fun hn => ⟨hcases.2 hn, ?_, ?_⟩⟩
  · by_contra hn
    rw [hthrow hn] at hmem
    simp only [List.mem_cons, List.mem_singleton, List.not_mem_nil, or_false] at hmem
    rcases hmem with h | h | h
    · exact headerLine_ne_validLine _ h.symm
    · exact errorLine_ne_validLine _ _ h.symm
    · exact sighLine_ne_validLine h.symm
  · obtain ⟨r, hs⟩ := hcases.1 hsa
    obtain ⟨l2, l3, hout⟩ := checkFile_package_of_ok host filePath text content hr hj hb r hs
    rw [hout]
    simp [validLine]
  · rw [hthrow hn, hh]; rfl
  · intro path result hmem
    rw [hthrow hn] at hmem
    simp only [List.mem_cons, List.mem_singleton, List.not_mem_nil, or_false] at hmem
    rcases hmem with h | h | h
    · exact ruleLine_ne_headerLine _ _ _ h
    · exact ruleLine_ne_errorLine _ _ _ _ h
    · exact ruleLine_ne_sighLine _ _ h

/-- C17 at concrete inputs: the sample file `package.json`, whose document has no
key `scripts`; the predicate throws and the report is the header and the failure
annotation. -/
theorem C17_package_json_start_witness :
    checkFile sampleHost (u "package.json") =
      [u "\n🔍 Checking package.json:",
       u "\n💥 " ++ u "package.json" ++ u ": " ++
         u "Cannot read properties of undefined (reading 'includes')",
       u "  (This is why we can't have nice things)"] :=
  ((C17_package_json_start sampleHost (u "package.json") (u "\x7b\x7d") (.obj []) none
    rfl rfl (by decide) rfl).2.2
    (fun h => by rcases h with ⟨s, h⟩ | ⟨xs, h⟩ <;> cases h)).2.1

/-- C18. The early exit of the walk is redundant: from every value and for every
list of parts, the walk that leaves the loop on `undefined` and the walk that
follows every part with `?.` give the same result, a thrown error included; once
the value is `undefined` the walk without exit stays on `undefined`. -/
theorem C18_walk_break_redundant (host : Host) (segs : List JSString) :
    (∀ value : JSVal, walk host value segs = walkNoBreak host value segs) ∧
    walkNoBreak host .undefined segs = .ok .undefined := by
  refine ⟨?_, walkNoBreak_undefined host segs⟩
  induction segs with
  | nil => intro value; rfl
  | cons part rest ih =>
    intro value
    simp only [walk, walkNoBreak]
    cases getProp host value part with
    | error m => rfl
    | ok v =>
      cases v with
      | undefined => exact (walkNoBreak_undefined host rest).symm
      | native name => exact ih _
      | json j => exact ih _

end ConfigSanity
